import Mathlib

/-!
Verification of the core of the Tiny-Search-Engine repository: the crawler
(crawler.c), the inverted indexer (indexer.c, indexio.c), the page file
I/O (pageio.c) and the boolean query engine (query.c).

Strings and files are modelled as `List Char`; C `int` values are modelled
as `Int` (no arithmetic in the verified claims approaches the 32-bit bound);
the generic queue ADT (queue.c) holds its elements in insertion order and is
modelled as a Lean `List` (front = head, `qput` appends at the back,
`qget` removes the head, `qsearch` returns the first match).
-/

namespace TSE

/-- whitespace as classified by C `isspace` in the default locale
(space, tab, newline, carriage return, vertical tab, form feed);
`scanf` whitespace directives and `%d`/`%s` leading-whitespace skipping
use this class. -/
def isWs (c : Char) : Bool :=
  decide (c.toNat = 32 ∨ c.toNat = 9 ∨ c.toNat = 10 ∨ c.toNat = 13 ∨
          c.toNat = 11 ∨ c.toNat = 12)

/-- decimal digit, as classified by C `isdigit`. -/
def isDigitC (c : Char) : Bool := decide (48 ≤ c.toNat ∧ c.toNat ≤ 57)

/-- ASCII letter, as classified by C `isalpha` in the default locale. -/
def isAlphaC (c : Char) : Bool :=
  decide ((65 ≤ c.toNat ∧ c.toNat ≤ 90) ∨ (97 ≤ c.toNat ∧ c.toNat ≤ 122))

/-- lowercase ASCII letter. -/
def isLowerC (c : Char) : Bool := decide (97 ≤ c.toNat ∧ c.toNat ≤ 122)

/-- C `tolower` restricted to ASCII. -/
def toLowerC (c : Char) : Char :=
  if 65 ≤ c.toNat ∧ c.toNat ≤ 90 then Char.ofNat (c.toNat + 32) else c

/-- the digit character for a value below ten. -/
def digitChar (n : Nat) : Char := Char.ofNat (48 + n)

/-- numeric value of a digit character. -/
def charVal (c : Char) : Nat := c.toNat - 48

/-- decimal rendering of a natural number, accumulator-passing and fuelled so
that it reduces by kernel evaluation; `natChars` instantiates the fuel. -/
def natCharsAux : Nat → Nat → List Char → List Char
  | 0, _, acc => acc
  | fuel + 1, n, acc =>
      if n < 10 then digitChar n :: acc
      else natCharsAux fuel (n / 10) (digitChar (n % 10) :: acc)

/-- decimal digit string of a natural number, most significant digit first;
models what C `printf %d` emits for a non-negative `int`. -/
def natChars (n : Nat) : List Char := natCharsAux (n + 1) n []

/-- decimal rendering of an `Int`, as C `printf %d`. -/
def intChars (i : Int) : List Char :=
  if i < 0 then '-' :: natChars i.natAbs else natChars i.toNat

/-- value of a digit string, most significant digit first. -/
def digitsVal (ds : List Char) : Nat :=
  ds.foldl (fun a c => 10 * a + charVal c) 0

/-- drop leading C whitespace. -/
def dropWs (s : List Char) : List Char := s.dropWhile isWs

/-- read a maximal run of decimal digits and its value; fails when the input
does not start with a digit (as `fscanf %d` fails without a digit). -/
def parseDigits (s : List Char) : Option (Nat × List Char) :=
  match s.takeWhile isDigitC with
  | [] => none
  | ds => some (digitsVal ds, s.dropWhile isDigitC)

/-- C `fscanf` with a `%d` conversion: skip whitespace, optional sign,
then at least one digit; fails (conversion count 0 or EOF) otherwise. -/
def scanInt (s : List Char) : Option (Int × List Char) :=
  match dropWs s with
  | [] => none
  | c :: r =>
      if c = '-' then (parseDigits r).map (fun p => (-(p.1 : Int), p.2))
      else if c = '+' then (parseDigits r).map (fun p => ((p.1 : Int), p.2))
      else (parseDigits (c :: r)).map (fun p => ((p.1 : Int), p.2))

/-- C `atoi`: skip whitespace, optional sign, leading digit run, value 0
when no digits are present. -/
def atoi (s : List Char) : Int :=
  match dropWs s with
  | [] => 0
  | c :: r =>
      if c = '-' then -(digitsVal (List.takeWhile isDigitC r) : Int)
      else if c = '+' then (digitsVal (List.takeWhile isDigitC r) : Int)
      else (digitsVal (List.takeWhile isDigitC (c :: r)) : Int)

/-! Basic facts about the character classes and the decimal machinery. -/

theorem isWs_of_isDigitC {c : Char} (h : isDigitC c = true) : isWs c = false := by
  simp [isDigitC] at h
  simp [isWs]
  omega

theorem isDigitC_digitChar {n : Nat} (h : n < 10) : isDigitC (digitChar n) = true := by
  interval_cases n <;> decide

theorem charVal_digitChar {n : Nat} (h : n < 10) : charVal (digitChar n) = n := by
  interval_cases n <;> decide

theorem ne_dash_of_isDigitC {c : Char} (h : isDigitC c = true) : c ≠ '-' := by
  intro he
  subst he
  simp [isDigitC] at h

theorem ne_plus_of_isDigitC {c : Char} (h : isDigitC c = true) : c ≠ '+' := by
  intro he
  subst he
  simp [isDigitC] at h

theorem natCharsAux_acc (fuel : Nat) :
    ∀ n acc, natCharsAux fuel n acc = natCharsAux fuel n [] ++ acc := by
  induction fuel with
  | zero => intro n acc; simp [natCharsAux]
  | succ f ih =>
      intro n acc
      by_cases h : n < 10
      · simp [natCharsAux, h]
      · simp only [natCharsAux, if_neg h]
        rw [ih (n / 10) (digitChar (n % 10) :: acc),
            ih (n / 10) [digitChar (n % 10)]]
        simp

theorem natCharsAux_fuel (n : Nat) :
    ∀ fuel acc, n < fuel → natCharsAux fuel n acc = natCharsAux (n + 1) n acc := by
  induction n using Nat.strong_induction_on with
  | _ n ih =>
    intro fuel acc hf
    obtain ⟨f, rfl⟩ : ∃ f, fuel = f + 1 := ⟨fuel - 1, by omega⟩
    by_cases h : n < 10
    · simp [natCharsAux, h]
    · simp only [natCharsAux, if_neg h]
      have hdiv : n / 10 < n := Nat.div_lt_self (by omega) (by omega)
      rw [ih (n / 10) hdiv f _ (by omega), ih (n / 10) hdiv n _ (by omega)]

theorem natChars_lt10 {n : Nat} (h : n < 10) : natChars n = [digitChar n] := by
  simp [natChars, natCharsAux, h]

theorem natChars_ge10 {n : Nat} (h : 10 ≤ n) :
    natChars n = natChars (n / 10) ++ [digitChar (n % 10)] := by
  have hdiv : n / 10 < n := Nat.div_lt_self (by omega) (by omega)
  show natCharsAux (n + 1) n [] = _
  simp only [natCharsAux, if_neg (by omega : ¬ n < 10)]
  rw [natCharsAux_fuel (n / 10) n _ (by omega)]
  rw [natCharsAux_acc]
  rfl

theorem natChars_ne_nil (n : Nat) : natChars n ≠ [] := by
  by_cases h : n < 10
  · simp [natChars_lt10 h]
  · rw [natChars_ge10 (by omega)]
    simp

theorem natChars_digits (n : Nat) : ∀ c ∈ natChars n, isDigitC c = true := by
  induction n using Nat.strong_induction_on with
  | _ n ih =>
    by_cases h : n < 10
    · rw [natChars_lt10 h]
      intro c hc
      simp at hc
      subst hc
      exact isDigitC_digitChar h
    · rw [natChars_ge10 (by omega)]
      intro c hc
      rcases List.mem_append.mp hc with h1 | h2
      · exact ih (n / 10) (Nat.div_lt_self (by omega) (by omega)) c h1
      · simp at h2
        subst h2
        exact isDigitC_digitChar (Nat.mod_lt _ (by omega))

theorem digitsVal_append_digit (xs : List Char) (c : Char) :
    digitsVal (xs ++ [c]) = 10 * digitsVal xs + charVal c := by
  simp [digitsVal, List.foldl_append]

theorem digitsVal_natChars (n : Nat) : digitsVal (natChars n) = n := by
  induction n using Nat.strong_induction_on with
  | _ n ih =>
    by_cases h : n < 10
    · rw [natChars_lt10 h]
      simp [digitsVal, charVal_digitChar h]
    · rw [natChars_ge10 (by omega), digitsVal_append_digit,
          ih (n / 10) (Nat.div_lt_self (by omega) (by omega)),
          charVal_digitChar (Nat.mod_lt _ (by omega))]
      omega

theorem takeWhile_append_all {α : Type} {p : α → Bool} :
    ∀ {xs : List α} (ys : List α), (∀ x ∈ xs, p x = true) →
      (xs ++ ys).takeWhile p = xs ++ ys.takeWhile p := by
  intro xs
  induction xs with
  | nil => intro ys _; rfl
  | cons a l ih =>
      intro ys h
      have ha : p a = true := h a (by simp)
      simp [List.takeWhile, ha, ih ys (fun x hx => h x (by simp [hx]))]

theorem dropWhile_append_all {α : Type} {p : α → Bool} :
    ∀ {xs : List α} (ys : List α), (∀ x ∈ xs, p x = true) →
      (xs ++ ys).dropWhile p = ys.dropWhile p := by
  intro xs
  induction xs with
  | nil => intro ys _; rfl
  | cons a l ih =>
      intro ys h
      have ha : p a = true := h a (by simp)
      simp [List.dropWhile, ha, ih ys (fun x hx => h x (by simp [hx]))]

theorem takeWhile_nil_of_head {α : Type} {p : α → Bool} {ys : List α}
    (h : ∀ c, ys.head? = some c → p c = false) : ys.takeWhile p = [] := by
  cases ys with
  | nil => rfl
  | cons a l => simp [List.takeWhile, h a rfl]

theorem dropWhile_self_of_head {α : Type} {p : α → Bool} {ys : List α}
    (h : ∀ c, ys.head? = some c → p c = false) : ys.dropWhile p = ys := by
  cases ys with
  | nil => rfl
  | cons a l => simp [List.dropWhile, h a rfl]

theorem parseDigits_natChars (n : Nat) (rest : List Char)
    (h : ∀ c, rest.head? = some c → isDigitC c = false) :
    parseDigits (natChars n ++ rest) = some (n, rest) := by
  unfold parseDigits
  rw [takeWhile_append_all rest (natChars_digits n),
      dropWhile_append_all rest (natChars_digits n),
      takeWhile_nil_of_head h, dropWhile_self_of_head h, List.append_nil]
  rcases hn : natChars n with _ | ⟨c, cs⟩
  · exact absurd hn (natChars_ne_nil n)
  · show some (digitsVal (c :: cs), rest) = some (n, rest)
    rw [← hn, digitsVal_natChars]

theorem dropWs_natChars_append (n : Nat) (rest : List Char) :
    dropWs (natChars n ++ rest) = natChars n ++ rest := by
  unfold dropWs
  apply dropWhile_self_of_head
  intro c hc
  rcases hn : natChars n with _ | ⟨d, ds⟩
  · exact absurd hn (natChars_ne_nil n)
  · rw [hn] at hc
    simp at hc
    subst hc
    exact isWs_of_isDigitC (natChars_digits n d (by rw [hn]; simp))

theorem scanInt_natChars (n : Nat) (rest : List Char)
    (h : ∀ c, rest.head? = some c → isDigitC c = false) :
    scanInt (natChars n ++ rest) = some ((n : Int), rest) := by
  unfold scanInt
  rw [dropWs_natChars_append]
  rcases hn : natChars n with _ | ⟨c, cs⟩
  · exact absurd hn (natChars_ne_nil n)
  · have hc : isDigitC c = true := natChars_digits n c (by rw [hn]; simp)
    rw [List.cons_append]
    show (if c = '-' then (parseDigits (cs ++ rest)).map (fun p => (-(p.1 : Int), p.2))
          else if c = '+' then (parseDigits (cs ++ rest)).map (fun p => ((p.1 : Int), p.2))
          else (parseDigits (c :: (cs ++ rest))).map (fun p => ((p.1 : Int), p.2))) =
        some ((n : Int), rest)
    rw [if_neg (ne_dash_of_isDigitC hc), if_neg (ne_plus_of_isDigitC hc),
        ← List.cons_append, ← hn, parseDigits_natChars n rest h]
    rfl

theorem atoi_natChars (n : Nat) : atoi (natChars n) = (n : Int) := by
  unfold atoi
  rw [show natChars n = natChars n ++ [] by simp, dropWs_natChars_append]
  rcases hn : natChars n with _ | ⟨c, cs⟩
  · exact absurd hn (natChars_ne_nil n)
  · have hc : isDigitC c = true := natChars_digits n c (by rw [hn]; simp)
    rw [List.append_nil]
    show (if c = '-' then -(digitsVal (List.takeWhile isDigitC cs) : Int)
          else if c = '+' then (digitsVal (List.takeWhile isDigitC cs) : Int)
          else (digitsVal (List.takeWhile isDigitC (c :: cs)) : Int)) = (n : Int)
    rw [if_neg (ne_dash_of_isDigitC hc), if_neg (ne_plus_of_isDigitC hc), ← hn]
    rw [List.takeWhile_eq_self_iff.mpr (natChars_digits n), digitsVal_natChars]

theorem atoi_all_alpha (nm : List Char) (h : ∀ c ∈ nm, isAlphaC c = true) :
    atoi nm = 0 := by
  have hws : dropWs nm = nm := by
    unfold dropWs
    apply dropWhile_self_of_head
    intro c hc
    cases nm with
    | nil => simp at hc
    | cons a l =>
        simp at hc
        subst hc
        have := h a (by simp)
        simp [isAlphaC] at this
        simp [isWs]
        omega
  unfold atoi
  rw [hws]
  cases nm with
  | nil => rfl
  | cons a l =>
      have ha : isAlphaC a = true := h a (by simp)
      have hnd : isDigitC a = false := by
        simp [isAlphaC] at ha
        simp [isDigitC]
        omega
      have h1 : a ≠ '-' := by
        intro he; subst he; simp [isAlphaC] at ha
      have h2 : a ≠ '+' := by
        intro he; subst he; simp [isAlphaC] at ha
      show (if a = '-' then -(digitsVal (List.takeWhile isDigitC l) : Int)
            else if a = '+' then (digitsVal (List.takeWhile isDigitC l) : Int)
            else (digitsVal (List.takeWhile isDigitC (a :: l)) : Int)) = 0
      rw [if_neg h1, if_neg h2]
      simp [List.takeWhile, hnd, digitsVal]

theorem intChars_nonneg {i : Int} (h : 0 ≤ i) : intChars i = natChars i.toNat := by
  unfold intChars
  rw [if_neg (by omega)]

theorem atoi_intChars {i : Int} (h : 0 ≤ i) : atoi (intChars i) = i := by
  rw [intChars_nonneg h, atoi_natChars, Int.toNat_of_nonneg h]

/-! The `strtok` tokenizer: maximal runs of non-delimiter characters, in
order; leading, trailing and repeated delimiters produce no tokens.
`query.c` splits queries with delimiters space and tab; `indexio.c` splits
index lines with delimiter space. -/

def splitAux (delim : Char → Bool) : List Char → List Char → List (List Char)
  | [], acc => if acc.isEmpty then [] else [acc.reverse]
  | c :: rest, acc =>
      if delim c then
        if acc.isEmpty then splitAux delim rest []
        else acc.reverse :: splitAux delim rest []
      else splitAux delim rest (c :: acc)

def splitToks (delim : Char → Bool) (s : List Char) : List (List Char) :=
  splitAux delim s []

theorem splitAux_run {delim : Char → Bool} :
    ∀ (tok s acc : List Char), (∀ c ∈ tok, delim c = false) →
      splitAux delim (tok ++ s) acc = splitAux delim s (tok.reverse ++ acc) := by
  intro tok
  induction tok with
  | nil => intro s acc _; rfl
  | cons a l ih =>
      intro s acc h
      have ha : delim a = false := h a (by simp)
      simp only [List.cons_append, splitAux, ha, Bool.false_eq_true, if_false,
        List.append_eq]
      rw [ih s (a :: acc) (fun c hc => h c (by simp [hc]))]
      simp

theorem splitToks_single {delim : Char → Bool} (tok : List Char)
    (hne : tok ≠ []) (h : ∀ c ∈ tok, delim c = false) :
    splitToks delim tok = [tok] := by
  unfold splitToks
  rw [show tok = tok ++ [] by simp, splitAux_run tok [] [] h]
  simp [splitAux, hne]

theorem splitToks_cons {delim : Char → Bool} (tok : List Char) (c : Char)
    (rest : List Char) (hne : tok ≠ []) (h : ∀ x ∈ tok, delim x = false)
    (hc : delim c = true) :
    splitToks delim (tok ++ c :: rest) = tok :: splitToks delim rest := by
  unfold splitToks
  rw [splitAux_run tok (c :: rest) [] h]
  simp only [splitAux, hc, if_true, List.append_nil]
  rw [if_neg (by simp [hne]), List.reverse_reverse]

/-! ### pageio.c: `pagesave` and `pageload` (claim C2)

A `webpage_t` models the PageRecord persisted per document: URL, crawl
depth, HTML length and the HTML body.  `pagesave` writes
`fprintf(file, "%s\n%d\n%d\n%s", url, depth, len, html)`.  `pageload`
reads it back with `fscanf(file, "%s\n", url)`, two `fscanf(file, "%d\n", ..)`
and then `fgetc` exactly `html_length` times (or until EOF).  The loaded
page is rebuilt with `webpage_new(url, depth, html)`, whose HTML length is
the length of the loaded HTML string. -/

structure webpage_t where
  url : List Char
  depth : Int
  html_length : Int
  html : List Char
deriving DecidableEq

def pagesave (p : webpage_t) : List Char :=
  p.url ++ '\n' :: (intChars p.depth ++ '\n' :: (intChars p.html_length ++ '\n' :: p.html))

/-- pageload, modelled on the file contents.  Note the `fscanf` semantics:
`%s` skips leading whitespace and reads a whitespace-delimited token, and a
whitespace character in the format string (the `\n` in `"%s\n"` and
`"%d\n"`) consumes any amount of following whitespace — including leading
whitespace of the HTML body. -/
def pageload (s : List Char) : Option webpage_t :=
  let s1 := dropWs s
  let url := s1.takeWhile (fun c => !isWs c)
  if url.isEmpty then none
  else
    match scanInt (dropWs (s1.dropWhile (fun c => !isWs c))) with
    | none => none
    | some (depth, s3) =>
        match scanInt (dropWs s3) with
        | none => none
        | some (len, s4) =>
            let html := (dropWs s4).take len.toNat
            some ⟨url, depth, (html.length : Int), html⟩

/-- C2 (counterexample): a PageRecord whose HTML begins with a whitespace
byte does not survive the save/load round trip: the whitespace directive in
`fscanf(file, "%d\n", &html_length)` consumes the HTML's leading whitespace,
so the loaded HTML (and its length) differ from the saved ones. -/
theorem C2_roundtrip_counterexample :
    pageload (pagesave ⟨['u'], 0, 2, [' ', 'x']⟩) ≠
      some ⟨['u'], 0, 2, [' ', 'x']⟩ := by
  decide

/-- C2 (amended): for a PageRecord whose url is non-empty and free of
whitespace, whose depth is non-negative, whose `html_length` equals the
byte length of `html`, and whose html does not begin with a whitespace
character, `pagesave` followed by `pageload` reproduces the record
exactly. -/
theorem C2_roundtrip_amended (p : webpage_t)
    (hurl : p.url ≠ [])
    (hurlws : ∀ c ∈ p.url, isWs c = false)
    (hd : 0 ≤ p.depth)
    (hlen : p.html_length = (p.html.length : Int))
    (hhtml : ∀ c, p.html.head? = some c → isWs c = false) :
    pageload (pagesave p) = some p := by
  obtain ⟨U, D, L, H⟩ := p
  simp only at hurl hurlws hd hlen hhtml
  subst hlen
  have hnl : isWs '\n' = true := by decide
  have hnd : isDigitC '\n' = false := by decide
  simp only [pagesave]
  rw [show intChars D = natChars D.toNat from intChars_nonneg hd,
      show intChars ((H.length : Int)) = natChars ((H.length : Int)).toNat from
        intChars_nonneg (by positivity)]
  set A : List Char :=
    natChars D.toNat ++ '\n' :: (natChars ((H.length : Int)).toNat ++ '\n' :: H) with hA
  have e1 : dropWs (U ++ '\n' :: A) = U ++ '\n' :: A := by
    apply dropWhile_self_of_head
    intro c hc
    cases U with
    | nil => exact absurd rfl hurl
    | cons u l =>
        simp at hc
        subst hc
        exact hurlws u (by simp)
  have e2 : (U ++ '\n' :: A).takeWhile (fun c => !isWs c) = U := by
    rw [takeWhile_append_all ('\n' :: A) (fun c hc => by simp [hurlws c hc])]
    simp [List.takeWhile, hnl]
  have e3 : (U ++ '\n' :: A).dropWhile (fun c => !isWs c) = '\n' :: A := by
    rw [dropWhile_append_all ('\n' :: A) (fun c hc => by simp [hurlws c hc])]
    apply dropWhile_self_of_head
    intro c hc
    simp at hc
    subst hc
    simp [hnl]
  have e4 : dropWs ('\n' :: A) = A := by
    show List.dropWhile isWs _ = _
    rw [List.dropWhile_cons_of_pos hnl, hA]
    exact dropWs_natChars_append _ _
  have e5 : scanInt A = some ((D.toNat : Int),
      '\n' :: (natChars ((H.length : Int)).toNat ++ '\n' :: H)) := by
    rw [hA]
    exact scanInt_natChars _ _ (by intro c hc; simp at hc; subst hc; exact hnd)
  have e6 : dropWs ('\n' :: (natChars ((H.length : Int)).toNat ++ '\n' :: H)) =
      natChars ((H.length : Int)).toNat ++ '\n' :: H := by
    show List.dropWhile isWs _ = _
    rw [List.dropWhile_cons_of_pos hnl]
    exact dropWs_natChars_append _ _
  have e7 : scanInt (natChars ((H.length : Int)).toNat ++ '\n' :: H) =
      some ((((H.length : Int)).toNat : Int), '\n' :: H) := by
    exact scanInt_natChars _ _ (by intro c hc; simp at hc; subst hc; exact hnd)
  have e8 : dropWs ('\n' :: H) = H := by
    show List.dropWhile isWs _ = _
    rw [List.dropWhile_cons_of_pos hnl]
    exact dropWhile_self_of_head hhtml
  have e9 : ((((H.length : Int)).toNat : Int)).toNat = H.length := by omega
  simp only [pagesave, pageload, e1, e2, e3, e4, e5, e6, e7, e8, e9,
    List.take_length, List.isEmpty_eq_true, hurl, if_false]
  rw [Int.toNat_of_nonneg hd]

/-- witness for the amended C2 round-trip theorem at a concrete record. -/
theorem C2_roundtrip_amended_witness :
    pageload (pagesave ⟨['u'], 1, 1, ['x']⟩) = some ⟨['u'], 1, 1, ['x']⟩ :=
  C2_roundtrip_amended ⟨['u'], 1, 1, ['x']⟩ (by decide) (by decide) (by decide)
    (by decide) (by decide)

/-! ### indexio.c: `indexsave` and `indexload` (claim C3)

`document_t` and `entry_t` mirror the structs of indexio.h; an index is the
list of entries in the hash table's iteration order (`happly`).
`indexsave` writes per entry `"%s "` for the word, `"%d %d "` per posting
and a final newline.  `indexload` reads lines with
`fgets(line_buffer, 1024, file)` — hence at most 1023 characters per read —
strips at the first `\r`/`\n` (`strcspn`), splits on single spaces
(`strtok`) and rebuilds the entry with `atoi`.  The C code dereferences
NULL (crashing before producing a mapping) when a line yields no token or
an odd number of number tokens; those paths are modelled as `none`. -/

structure document_t where
  id : Int
  word_count : Int
deriving DecidableEq

structure entry_t where
  word : List Char
  documents : List document_t
deriving DecidableEq

def isSp (c : Char) : Bool := c = ' '

/-- character survives `strcspn(line_buffer, "\r\n")` truncation. -/
def notCRLF (c : Char) : Bool := decide (c.toNat ≠ 13 ∧ c.toNat ≠ 10)

/-- bytes written by `doc_queue_write_fn` for one posting: `"%d %d "`. -/
def doc_field (d : document_t) : List Char :=
  intChars d.id ++ ' ' :: (intChars d.word_count ++ [' '])

/-- bytes written by `index_write_fn` for one entry (its whole line). -/
def indexsave_line (e : entry_t) : List Char :=
  e.word ++ ' ' :: ((e.documents.map doc_field).flatten ++ ['\n'])

def indexsave (index : List entry_t) : List Char :=
  (index.map indexsave_line).flatten

/-- `fgets(buf, k+1, file)`: read up to `k` characters, stopping after a
newline; returns the chunk and the rest of the stream. -/
def fgetsAux : Nat → List Char → List Char × List Char
  | 0, s => ([], s)
  | _ + 1, [] => ([], [])
  | k + 1, c :: rest =>
      if c = '\n' then ([c], rest)
      else
        let p := fgetsAux k rest
        (c :: p.1, p.2)

/-- the `strtok`/`atoi` pairs loop of `indexload`; an odd number of tokens
makes the C code call `atoi(NULL)` (a crash), modelled as `none`. -/
def parsePairs : List (List Char) → Option (List document_t)
  | [] => some []
  | [_] => none
  | a :: b :: r => (parsePairs r).map (fun ds => ⟨atoi a, atoi b⟩ :: ds)

/-- parse one fgets chunk as an index line; a line with no token makes the
C code call `strlen(NULL)` (a crash), modelled as `none`. -/
def parseLine (chunk : List Char) : Option entry_t :=
  match splitToks isSp (chunk.takeWhile notCRLF) with
  | [] => none
  | w :: toks => (parsePairs toks).map (fun ds => ⟨w, ds⟩)

def indexloadAux : Nat → List Char → Option (List entry_t)
  | _, [] => some []
  | 0, _ :: _ => none
  | fuel + 1, c :: rest =>
      let p := fgetsAux 1023 (c :: rest)
      match parseLine p.1 with
      | none => none
      | some e => (indexloadAux fuel p.2).map (fun es => e :: es)

def indexload (s : List Char) : Option (List entry_t) := indexloadAux s.length s

theorem isSp_of_isDigitC {c : Char} (h : isDigitC c = true) : isSp c = false := by
  simp [isSp]
  intro he
  subst he
  simp [isDigitC] at h

theorem isSp_of_isLowerC {c : Char} (h : isLowerC c = true) : isSp c = false := by
  simp [isSp]
  intro he
  subst he
  simp [isLowerC] at h

theorem notCRLF_of_isDigitC {c : Char} (h : isDigitC c = true) : notCRLF c = true := by
  simp [isDigitC] at h
  simp [notCRLF]
  omega

theorem notCRLF_of_isLowerC {c : Char} (h : isLowerC c = true) : notCRLF c = true := by
  simp [isLowerC] at h
  simp [notCRLF]
  omega

theorem ne_nl_of_notCRLF {c : Char} (h : notCRLF c = true) : c ≠ '\n' := by
  intro he
  subst he
  simp [notCRLF] at h

theorem fgetsAux_line : ∀ (line : List Char) (k : Nat) (rest : List Char),
    line.length < k → (∀ c ∈ line, c ≠ '\n') →
    fgetsAux k (line ++ '\n' :: rest) = (line ++ ['\n'], rest) := by
  intro line
  induction line with
  | nil =>
      intro k rest hk _
      obtain ⟨j, rfl⟩ : ∃ j, k = j + 1 := ⟨k - 1, by omega⟩
      simp [fgetsAux]
  | cons a l ih =>
      intro k rest hk h
      obtain ⟨j, rfl⟩ : ∃ j, k = j + 1 := ⟨k - 1, by omega⟩
      have ha : a ≠ '\n' := h a (by simp)
      simp only [List.cons_append, fgetsAux, if_neg ha, List.append_eq]
      rw [ih j rest (by simp at hk; omega) (fun c hc => h c (by simp [hc]))]

/-- the two decimal tokens contributed by each posting, in order. -/
def pairTokens : List document_t → List (List Char)
  | [] => []
  | d :: ds => intChars d.id :: intChars d.word_count :: pairTokens ds

theorem doc_fields_flat (docs : List document_t) :
    (docs.map doc_field).flatten =
      ((pairTokens docs).map (fun t => t ++ [' '])).flatten := by
  induction docs with
  | nil => rfl
  | cons d ds ih => simp [doc_field, pairTokens, ih]

theorem splitToks_flat (toks : List (List Char))
    (h : ∀ t ∈ toks, t ≠ [] ∧ ∀ c ∈ t, isSp c = false) :
    splitToks isSp ((toks.map (fun t => t ++ [' '])).flatten) = toks := by
  induction toks with
  | nil => rfl
  | cons t ts ih =>
      have ht := h t (by simp)
      have harr : ((t :: ts).map (fun t => t ++ [' '])).flatten =
          t ++ ' ' :: ((ts.map (fun t => t ++ [' '])).flatten) := by simp
      rw [harr, splitToks_cons t ' ' _ ht.1 ht.2 (by decide),
          ih (fun x hx => h x (by simp [hx]))]

theorem parsePairs_tokens (docs : List document_t)
    (h : ∀ d ∈ docs, 1 ≤ d.id ∧ 1 ≤ d.word_count) :
    parsePairs (pairTokens docs) = some docs := by
  induction docs with
  | nil => rfl
  | cons d ds ih =>
      have hd := h d (by simp)
      show parsePairs (intChars d.id :: intChars d.word_count :: pairTokens ds) = _
      simp only [parsePairs]
      rw [ih (fun x hx => h x (by simp [hx])),
          atoi_intChars (by omega), atoi_intChars (by omega)]
      rfl

theorem pairTokens_mem {docs : List document_t} {t : List Char}
    (h : t ∈ pairTokens docs) :
    ∃ d ∈ docs, t = intChars d.id ∨ t = intChars d.word_count := by
  induction docs with
  | nil => simp [pairTokens] at h
  | cons d ds ih =>
      simp only [pairTokens, List.mem_cons] at h
      rcases h with h | h | h
      · exact ⟨d, by simp, Or.inl h⟩
      · exact ⟨d, by simp, Or.inr h⟩
      · obtain ⟨x, hx, hor⟩ := ih h
        exact ⟨x, by simp [hx], hor⟩

theorem intChars_pos_digits {i : Int} (hi : 1 ≤ i) :
    ∀ c ∈ intChars i, isDigitC c = true := by
  rw [intChars_nonneg (by omega)]
  exact natChars_digits _

theorem intChars_ne_nil (i : Int) : intChars i ≠ [] := by
  unfold intChars
  by_cases h : i < 0
  · simp [h]
  · simp [h, natChars_ne_nil]

theorem indexsave_line_eq (e : entry_t) :
    indexsave_line e =
      (e.word ++ ' ' :: (e.documents.map doc_field).flatten) ++ ['\n'] := by
  simp [indexsave_line]

theorem flat_chars {docs : List document_t}
    (h : ∀ d ∈ docs, 1 ≤ d.id ∧ 1 ≤ d.word_count) :
    ∀ c ∈ (docs.map doc_field).flatten, isDigitC c = true ∨ c = ' ' := by
  intro c hc
  simp only [List.mem_flatten, List.mem_map] at hc
  obtain ⟨l, ⟨d, hdm, rfl⟩, hcl⟩ := hc
  unfold doc_field at hcl
  rcases List.mem_append.mp hcl with h1 | h2
  · exact Or.inl (intChars_pos_digits (h d hdm).1 c h1)
  · rcases List.mem_cons.mp h2 with rfl | h3
    · exact Or.inr rfl
    · rcases List.mem_append.mp h3 with h4 | h5
      · exact Or.inl (intChars_pos_digits (h d hdm).2 c h4)
      · simp at h5
        exact Or.inr h5

theorem content_notCRLF {w : List Char} {docs : List document_t}
    (hwc : ∀ c ∈ w, isLowerC c = true)
    (hd : ∀ d ∈ docs, 1 ≤ d.id ∧ 1 ≤ d.word_count) :
    ∀ c ∈ w ++ ' ' :: (docs.map doc_field).flatten, notCRLF c = true := by
  intro c hc
  rcases List.mem_append.mp hc with h1 | h2
  · exact notCRLF_of_isLowerC (hwc c h1)
  · rcases List.mem_cons.mp h2 with rfl | h3
    · decide
    · rcases flat_chars hd c h3 with h4 | rfl
      · exact notCRLF_of_isDigitC h4
      · decide

theorem parseLine_save (e : entry_t)
    (hw : e.word ≠ []) (hwc : ∀ c ∈ e.word, isLowerC c = true)
    (hd : ∀ d ∈ e.documents, 1 ≤ d.id ∧ 1 ≤ d.word_count) :
    parseLine (indexsave_line e) = some e := by
  obtain ⟨w, docs⟩ := e
  simp only at hw hwc hd
  unfold parseLine
  have e1 : (indexsave_line ⟨w, docs⟩).takeWhile notCRLF =
      w ++ ' ' :: (docs.map doc_field).flatten := by
    rw [indexsave_line_eq]
    show List.takeWhile notCRLF _ = _
    rw [takeWhile_append_all ['\n'] (content_notCRLF hwc hd)]
    have : notCRLF '\n' = false := by decide
    simp [List.takeWhile, this]
  rw [e1]
  have e2 : w ++ ' ' :: (docs.map doc_field).flatten =
      ((w :: pairTokens docs).map (fun t => t ++ [' '])).flatten := by
    simp [doc_fields_flat docs]
  rw [e2, splitToks_flat _ ?toksok]
  case toksok =>
    intro t ht
    rcases List.mem_cons.mp ht with rfl | htk
    · exact ⟨hw, fun c hc => isSp_of_isLowerC (hwc c hc)⟩
    · obtain ⟨d, hdm, hor⟩ := pairTokens_mem htk
      have hdd := hd d hdm
      rcases hor with rfl | rfl
      · exact ⟨intChars_ne_nil _,
          fun c hc => isSp_of_isDigitC (intChars_pos_digits hdd.1 c hc)⟩
      · exact ⟨intChars_ne_nil _,
          fun c hc => isSp_of_isDigitC (intChars_pos_digits hdd.2 c hc)⟩
  show (parsePairs (pairTokens docs)).map _ = _
  rw [parsePairs_tokens docs hd]
  rfl

theorem indexloadAux_cons (fuel : Nat) (s : List Char) (hs : s ≠ []) :
    indexloadAux (fuel + 1) s =
      match parseLine (fgetsAux 1023 s).1 with
      | none => none
      | some e => (indexloadAux fuel (fgetsAux 1023 s).2).map (fun es => e :: es) := by
  cases s with
  | nil => exact absurd rfl hs
  | cons c r => rfl

theorem indexloadAux_save : ∀ (index : List entry_t) (fuel : Nat),
    (∀ e ∈ index, 3 ≤ e.word.length ∧ (∀ c ∈ e.word, isLowerC c = true) ∧
      (∀ d ∈ e.documents, 1 ≤ d.id ∧ 1 ≤ d.word_count) ∧
      (indexsave_line e).length ≤ 1023) →
    (indexsave index).length ≤ fuel →
    indexloadAux fuel (indexsave index) = some index := by
  intro index
  induction index with
  | nil =>
      intro fuel _ _
      show indexloadAux fuel [] = some []
      cases fuel <;> rfl
  | cons e es ih =>
      intro fuel h hlen
      obtain ⟨hw3, hwc, hd, hl⟩ := h e (by simp)
      have hw : e.word ≠ [] := by
        intro he
        rw [he] at hw3
        simp at hw3
      have hsave : indexsave (e :: es) = indexsave_line e ++ indexsave es := by
        simp [indexsave]
      have hline : indexsave_line e =
          (e.word ++ ' ' :: (e.documents.map doc_field).flatten) ++ ['\n'] :=
        indexsave_line_eq e
      have hlpos : 1 ≤ (indexsave_line e).length := by
        rw [hline]
        simp
        omega
      obtain ⟨f, rfl⟩ : ∃ f, fuel = f + 1 := by
        refine ⟨fuel - 1, ?_⟩
        rw [hsave] at hlen
        simp at hlen
        omega
      have hne : indexsave (e :: es) ≠ [] := by
        rw [hsave, hline]
        simp
      rw [indexloadAux_cons f _ hne, hsave, hline, List.append_assoc,
          List.singleton_append]
      rw [fgetsAux_line _ 1023 _ ?lenlt ?nonl]
      case lenlt =>
        rw [hline] at hl
        simp at hl ⊢
        omega
      case nonl =>
        intro c hc
        exact ne_nl_of_notCRLF (content_notCRLF hwc hd c hc)
      rw [← hline, parseLine_save e hw hwc hd]
      rw [ih f (fun x hx => h x (by simp [hx])) ?flen]
      case flen =>
        rw [hsave] at hlen
        simp at hlen ⊢
        omega
      rfl

/-- an index whose single entry serialises to a line of more than 1023
characters: an eight-letter word with postings `(i, i)` for `i = 1..154`. -/
def overlongIndex : List entry_t :=
  [⟨List.replicate 8 'a', (List.range 154).map (fun i => ⟨(i : Int) + 1, (i : Int) + 1⟩)⟩]

set_option maxRecDepth 40000 in
/-- C3 (counterexample): an index whose serialised line exceeds the
1023-character `fgets` buffer of `indexload` does not survive the round
trip: the line is consumed as two reads, the final posting is mangled
(count 154 is read back as 15) and the tail of the line becomes a spurious
second entry whose word is the digit string `4`. -/
theorem C3_roundtrip_counterexample :
    indexload (indexsave overlongIndex) ≠ some overlongIndex := by
  decide

/-- C3 (amended): serialising an index of `[a-z]{3,}` words and positive
postings and reloading it yields the original index, provided every
serialised line fits in the loader's 1023-character `fgets` buffer. -/
theorem C3_roundtrip_amended (index : List entry_t)
    (h : ∀ e ∈ index, 3 ≤ e.word.length ∧ (∀ c ∈ e.word, isLowerC c = true) ∧
      (∀ d ∈ e.documents, 1 ≤ d.id ∧ 1 ≤ d.word_count) ∧
      (indexsave_line e).length ≤ 1023) :
    indexload (indexsave index) = some index :=
  indexloadAux_save index _ h (le_refl _)

/-- witness for the amended C3 round-trip theorem at a concrete index. -/
theorem C3_roundtrip_amended_witness :
    indexload (indexsave [⟨['f', 'o', 'o'], [⟨1, 2⟩, ⟨3, 1⟩]⟩]) =
      some [⟨['f', 'o', 'o'], [⟨1, 2⟩, ⟨3, 1⟩]⟩] :=
  C3_roundtrip_amended _ (by decide)

/-! ### query.c: tokenisation and validation (claims C4, C5)

`tokenize_query` splits the raw query on spaces and tabs (`strtok`),
normalises each token in place (`NormalizeWord`: reject the whole query on
any non-alphabetic character, lowercase otherwise), silently drops tokens
of length < 3 that are not the literal `or`, and inserts an implicit `and`
between two consecutively emitted non-operator terms (`prev_token` is only
updated when a token is emitted). -/

def andW : List Char := ['a', 'n', 'd']

def orW : List Char := ['o', 'r']

def isSpTab (c : Char) : Bool := c = ' ' ∨ c = '\t'

/-- NormalizeWord of query.c: fails when some character is not alphabetic
(the whole query is then rejected), otherwise lowercases the token. -/
def NormalizeWordQuery (w : List Char) : Option (List Char) :=
  if w.all isAlphaC then some (w.map toLowerC) else none

def isOpW (w : List Char) : Bool := w = andW ∨ w = orW

/-- the emitting loop of `tokenize_query`, carrying `prev_token` (the last
emitted token, `none` before the first emission). -/
def tokenizeLoop : Option (List Char) → List (List Char) → Option (List (List Char))
  | _, [] => some []
  | prev, t :: rest =>
      match NormalizeWordQuery t with
      | none => none
      | some w =>
          if w.length < 3 ∧ w ≠ orW then tokenizeLoop prev rest
          else
            let ins :=
              match prev with
              | some p => if isOpW p = false ∧ isOpW w = false then [andW] else []
              | none => ([] : List (List Char))
            (tokenizeLoop (some w) rest).map (fun ts => ins ++ w :: ts)

def tokenize_query (raw : List Char) : Option (List (List Char)) :=
  tokenizeLoop none (splitToks isSpTab raw)

/-- Modelled from the spec's words (for comparison with `tokenize_query`):
the surviving tokens are the lowercased tokens of length at least 3
together with the literal `or`. -/
def specSurvivors (toks : List (List Char)) : List (List Char) :=
  (toks.map (fun t => t.map toLowerC)).filter
    (fun w => decide (3 ≤ w.length) || w == orW)

/-- Modelled from the spec's words: an `and` is inserted between any two
adjacent surviving terms (tokens that are not `and`/`or`). -/
def specInsertAnds : Option (List Char) → List (List Char) → List (List Char)
  | _, [] => []
  | prev, w :: rest =>
      (match prev with
       | some p => if isOpW p = false ∧ isOpW w = false then [andW] else []
       | none => ([] : List (List Char))) ++ w :: specInsertAnds (some w) rest

/-- Modelled from the spec's words: drop-then-insert composition. -/
def specStream (toks : List (List Char)) : List (List Char) :=
  specInsertAnds none (specSurvivors toks)

theorem isSpTab_of_isAlphaC {c : Char} (h : isAlphaC c = true) :
    isSpTab c = false := by
  simp [isAlphaC] at h
  simp [isSpTab]
  constructor
  · intro he; subst he; simp at h
  · intro he; subst he; simp at h

theorem length_toLower (w : List Char) : (w.map toLowerC).length = w.length := by
  simp

theorem tokenizeLoop_spec : ∀ (toks : List (List Char)) (prev : Option (List Char)),
    (∀ t ∈ toks, t.all isAlphaC = true) →
    tokenizeLoop prev toks = some (specInsertAnds prev (specSurvivors toks)) := by
  intro toks
  induction toks with
  | nil => intro prev _; rfl
  | cons t rest ih =>
      intro prev h
      have ht : t.all isAlphaC = true := h t (by simp)
      have hrest : ∀ x ∈ rest, x.all isAlphaC = true := fun x hx => h x (by simp [hx])
      simp only [tokenizeLoop, NormalizeWordQuery, if_pos ht]
      by_cases hdrop : (t.map toLowerC).length < 3 ∧ t.map toLowerC ≠ orW
      · rw [if_pos hdrop, ih prev hrest]
        have : specSurvivors (t :: rest) = specSurvivors rest := by
          simp only [specSurvivors, List.map_cons, List.filter_cons]
          rw [if_neg]
          simp only [Bool.or_eq_true, decide_eq_true_eq, beq_iff_eq]
          push_neg
          exact ⟨by omega, hdrop.2⟩
        rw [this]
      · rw [if_neg hdrop, ih (some (t.map toLowerC)) hrest]
        have : specSurvivors (t :: rest) = t.map toLowerC :: specSurvivors rest := by
          simp only [specSurvivors, List.map_cons, List.filter_cons]
          rw [if_pos]
          simp only [Bool.or_eq_true, decide_eq_true_eq, beq_iff_eq]
          by_cases h3 : 3 ≤ (t.map toLowerC).length
          · exact Or.inl h3
          · exact Or.inr (by by_contra hor; exact hdrop ⟨by omega, hor⟩)
        rw [this]
        rfl

theorem tokenizeLoop_step_keep (prev : Option (List Char)) (s : List Char)
    (rest : List (List Char)) (hsa : s.all isAlphaC = true)
    (hnd : ¬((s.map toLowerC).length < 3 ∧ s.map toLowerC ≠ orW)) :
    tokenizeLoop prev (s :: rest) =
      (tokenizeLoop (some (s.map toLowerC)) rest).map
        (fun ts =>
          (match prev with
           | some p =>
               if isOpW p = false ∧ isOpW (s.map toLowerC) = false
               then [andW] else []
           | none => ([] : List (List Char))) ++ (s.map toLowerC) :: ts) := by
  simp only [tokenizeLoop, NormalizeWordQuery, if_pos hsa, if_neg hnd]

theorem tokenizeLoop_step_drop (prev : Option (List Char)) (a : List Char)
    (rest : List (List Char)) (haa : a.all isAlphaC = true)
    (h : (a.map toLowerC).length < 3 ∧ a.map toLowerC ≠ orW) :
    tokenizeLoop prev (a :: rest) = tokenizeLoop prev rest := by
  simp only [tokenizeLoop, NormalizeWordQuery, if_pos haa, if_pos h]

theorem no_drop_of_long {s : List Char} (h3 : 3 ≤ s.length) :
    ¬((s.map toLowerC).length < 3 ∧ s.map toLowerC ≠ orW) := by
  intro h
  have := h.1
  simp at this
  omega

theorem all_no_delim {s : List Char} (hsa : s.all isAlphaC = true) :
    ∀ c ∈ s, isSpTab c = false :=
  fun c hc => isSpTab_of_isAlphaC (List.all_eq_true.mp hsa c hc)

theorem ne_nil_of_long {s : List Char} (h3 : 3 ≤ s.length) : s ≠ [] := by
  intro h
  subst h
  simp at h3

/-- C4: for queries of alphabetic tokens, `tokenize_query` equals the
spec-side composition (lowercase everything, drop tokens of length < 3
other than the literal `or`, insert an implicit `and` between adjacent
surviving terms); consequently for non-operator terms `s`, `t` of
length ≥ 3 the query `s t` tokenises exactly like `s and t`, and a
dropped short token leaves the stream unchanged: `s a t` tokenises like
`s t`. -/
theorem C4_tokenize_query :
    (∀ raw : List Char, (∀ t ∈ splitToks isSpTab raw, t.all isAlphaC = true) →
      tokenize_query raw = some (specStream (splitToks isSpTab raw))) ∧
    (∀ s t : List Char, s.all isAlphaC = true → t.all isAlphaC = true →
      3 ≤ s.length → 3 ≤ t.length →
      isOpW (s.map toLowerC) = false → isOpW (t.map toLowerC) = false →
      tokenize_query (s ++ ' ' :: t) =
        some [s.map toLowerC, andW, t.map toLowerC] ∧
      tokenize_query (s ++ ' ' :: (andW ++ ' ' :: t)) =
        some [s.map toLowerC, andW, t.map toLowerC]) ∧
    (∀ s a t : List Char, s.all isAlphaC = true → a.all isAlphaC = true →
      t.all isAlphaC = true → a ≠ [] → a.length < 3 → a.map toLowerC ≠ orW →
      3 ≤ s.length → 3 ≤ t.length →
      tokenize_query (s ++ ' ' :: (a ++ ' ' :: t)) =
        tokenize_query (s ++ ' ' :: t)) := by
  refine ⟨?spec, ?implicit, ?drop⟩
  case spec =>
    intro raw h
    exact tokenizeLoop_spec _ none h
  case implicit =>
    intro s t hsa hta hs3 ht3 hsop htop
    have e1 : splitToks isSpTab (s ++ ' ' :: t) = [s, t] := by
      rw [splitToks_cons s ' ' t (ne_nil_of_long hs3) (all_no_delim hsa) (by decide),
          splitToks_single t (ne_nil_of_long ht3) (all_no_delim hta)]
    have e2 : splitToks isSpTab (s ++ ' ' :: (andW ++ ' ' :: t)) = [s, andW, t] := by
      rw [splitToks_cons s ' ' _ (ne_nil_of_long hs3) (all_no_delim hsa) (by decide),
          splitToks_cons andW ' ' t (by decide) (by decide) (by decide),
          splitToks_single t (ne_nil_of_long ht3) (all_no_delim hta)]
    constructor
    · unfold tokenize_query
      rw [e1,
          tokenizeLoop_step_keep none s [t] hsa (no_drop_of_long hs3),
          tokenizeLoop_step_keep _ t [] hta (no_drop_of_long ht3)]
      simp only [tokenizeLoop, Option.map_some]
      rw [if_pos ⟨hsop, htop⟩]
      rfl
    · unfold tokenize_query
      have hand : List.map toLowerC andW = andW := by decide
      rw [e2,
          tokenizeLoop_step_keep none s [andW, t] hsa (no_drop_of_long hs3),
          tokenizeLoop_step_keep _ andW [t] (by decide) (by decide),
          tokenizeLoop_step_keep _ t [] hta (no_drop_of_long ht3), hand]
      simp only [tokenizeLoop, Option.map_some]
      rw [if_neg (fun h => absurd h.2 (by decide : ¬ isOpW andW = false)),
          if_neg (fun h => absurd h.1 (by decide : ¬ isOpW andW = false))]
      rfl
  case drop =>
    intro s a t hsa haa hta hane ha3 haor hs3 ht3
    have e3 : splitToks isSpTab (s ++ ' ' :: (a ++ ' ' :: t)) = [s, a, t] := by
      rw [splitToks_cons s ' ' _ (ne_nil_of_long hs3) (all_no_delim hsa) (by decide),
          splitToks_cons a ' ' t hane (all_no_delim haa) (by decide),
          splitToks_single t (ne_nil_of_long ht3) (all_no_delim hta)]
    have e1 : splitToks isSpTab (s ++ ' ' :: t) = [s, t] := by
      rw [splitToks_cons s ' ' t (ne_nil_of_long hs3) (all_no_delim hsa) (by decide),
          splitToks_single t (ne_nil_of_long ht3) (all_no_delim hta)]
    unfold tokenize_query
    rw [e3, e1,
        tokenizeLoop_step_keep none s [a, t] hsa (no_drop_of_long hs3),
        tokenizeLoop_step_keep none s [t] hsa (no_drop_of_long hs3),
        tokenizeLoop_step_drop _ a [t] haa ⟨by simpa using ha3, haor⟩]

/-- witness instantiating the C4 theorem: the implicit-and equalities and
short-token dropping at the concrete terms of the spec's examples. -/
theorem C4_tokenize_query_witness :
    tokenize_query (['f', 'o', 'o'] ++ ' ' :: ['b', 'a', 'r']) =
      some [['f', 'o', 'o'], andW, ['b', 'a', 'r']] ∧
    tokenize_query (['f', 'o', 'o'] ++ ' ' :: (['a'] ++ ' ' :: ['b', 'a', 'r'])) =
      tokenize_query (['f', 'o', 'o'] ++ ' ' :: ['b', 'a', 'r']) := by
  constructor
  · have h := (C4_tokenize_query.2.1 ['f', 'o', 'o'] ['b', 'a', 'r']
      (by decide) (by decide) (by decide) (by decide) (by decide) (by decide)).1
    simpa using h
  · exact C4_tokenize_query.2.2 ['f', 'o', 'o'] ['a'] ['b', 'a', 'r']
      (by decide) (by decide) (by decide) (by decide) (by decide) (by decide)
      (by decide) (by decide)

/-- the adjacent-operator scan of `validate_query` (the `for` loop over
`i = 0 .. num_tokens-2`). -/
def noAdjOps : List (List Char) → Bool
  | a :: b :: rest => !(isOpW a && isOpW b) && noAdjOps (b :: rest)
  | _ => true

/-- validate_query of query.c; the C function is only called on non-empty
token arrays (`main` treats an empty tokenisation as invalid before the
call), so the empty case is mapped to `false`. -/
def validate_query (q : List (List Char)) : Bool :=
  match q.getLast? with
  | none => false
  | some lastTok =>
      match q with
      | [] => false
      | first :: _ => !isOpW first && !isOpW lastTok && noAdjOps q

/-- validity as the spec words it: non-empty stream, first and last tokens
not operators, no two adjacent operators. -/
def validSpec (q : List (List Char)) : Prop :=
  q ≠ [] ∧ (∀ w, q.head? = some w → isOpW w = false) ∧
  (∀ w, q.getLast? = some w → isOpW w = false) ∧
  ∀ i a b, q[i]? = some a → q[i + 1]? = some b →
    ¬(isOpW a = true ∧ isOpW b = true)

theorem noAdjOps_iff : ∀ (q : List (List Char)), noAdjOps q = true ↔
    ∀ i a b, q[i]? = some a → q[i + 1]? = some b →
      ¬(isOpW a = true ∧ isOpW b = true)
  | [] => by
      simp only [noAdjOps, true_iff]
      intro i a b ha
      simp at ha
  | [a] => by
      simp only [noAdjOps, true_iff]
      intro i x y hx hy
      cases i with
      | zero => simp at hy
      | succ j =>
          simp at hx
  | a :: b :: rest => by
      have ih := noAdjOps_iff (b :: rest)
      simp only [noAdjOps, Bool.and_eq_true, ih]
      constructor
      · rintro ⟨h1, h2⟩ i x y hx hy
        cases i with
        | zero =>
            simp at hx hy
            subst hx
            subst hy
            intro hc
            rw [hc.1, hc.2] at h1
            simp at h1
        | succ j => exact h2 j x y (by simpa using hx) (by simpa using hy)
      · intro h
        refine ⟨?_, ?_⟩
        · have := h 0 a b (by simp) (by simp)
          by_cases ha : isOpW a = true
          · by_cases hb : isOpW b = true
            · exact absurd ⟨ha, hb⟩ this
            · have hb2 : isOpW b = false := by simpa using hb
              simp [hb2]
          · have ha2 : isOpW a = false := by simpa using ha
            simp [ha2]
        · intro j x y hx hy
          exact h (j + 1) x y (by simpa using hx) (by simpa using hy)

theorem validate_query_iff (q : List (List Char)) :
    validate_query q = true ↔ validSpec q := by
  cases q with
  | nil => simp [validate_query, validSpec]
  | cons w rest =>
      obtain ⟨l, hl⟩ : ∃ l, (w :: rest).getLast? = some l := by
        cases h : (w :: rest).getLast? with
        | none => simp at h
        | some x => exact ⟨x, rfl⟩
      unfold validate_query
      rw [hl]
      show (!isOpW w && !isOpW l && noAdjOps (w :: rest)) = true ↔ _
      unfold validSpec
      simp only [Bool.and_eq_true, Bool.not_eq_true', noAdjOps_iff]
      constructor
      · rintro ⟨⟨h1, h2⟩, h3⟩
        refine ⟨by simp, ?_, ?_, h3⟩
        · intro x hx
          simp at hx
          subst hx
          exact h1
        · intro x hx
          rw [hl] at hx
          injection hx with hx
          subst hx
          exact h2
      · rintro ⟨_, h1, h2, h3⟩
        exact ⟨⟨h1 w (by simp), h2 l hl⟩, h3⟩

/-! ### query.c: result-list combination (claims C1, C8)

During evaluation only the `id` and `word_count` fields of a
`rankedDoc_t` participate (url/title/content stay NULL until
`get_metadata`, modelled separately for claim C7), and `get_union` reads
exactly those two fields of the index's `document_t` postings, so queue
elements on both sides are modelled as `document_t`.

`get_intersection qp1 qp2` drains `qp1`; each document whose id is found
in `qp2` (first match of `qsearch`) is kept with its count lowered to the
minimum, the others are freed; `qp2` is freed afterwards.

`get_union qp1 qp2` drains `qp2` into a scratch queue `tmp`, adding each
count into the first matching document of `qp1` or appending a fresh
document (`init_doc`); afterwards `tmp` is drained back into the empty
`qp2`, restoring it, and `qp1` is returned. -/

def doc_search (l : List document_t) (i : Int) : Option document_t :=
  l.find? (fun d => d.id == i)

def get_intersection : List document_t → List document_t → List document_t
  | [], _ => []
  | doc :: rest, qp2 =>
      match doc_search qp2 doc.id with
      | some dp =>
          ⟨doc.id, if dp.word_count < doc.word_count
                   then dp.word_count else doc.word_count⟩ ::
            get_intersection rest qp2
      | none => get_intersection rest qp2

/-- one iteration of the drain loop of `get_union` on `qp1`: add `wc` to
the first document with id `i`, or append `init_doc i wc`. -/
def add_doc : List document_t → Int → Int → List document_t
  | [], i, wc => [⟨i, wc⟩]
  | d :: rest, i, wc =>
      if d.id = i then ⟨d.id, d.word_count + wc⟩ :: rest
      else d :: add_doc rest i wc

/-- the drain loop of `get_union`: `qp2` is drained into `tmp` while
`qp1` accumulates; returns the pair (new `qp1`, `tmp`). -/
def union_drain : List document_t → List document_t → List document_t →
    List document_t × List document_t
  | qp1, [], tmp => (qp1, tmp)
  | qp1, dp :: rest, tmp =>
      union_drain (add_doc qp1 dp.id dp.word_count) rest (tmp ++ [dp])

/-- `get_union` including its observable effect on `qp2`: the result queue
(`qp1`, returned by the C function) and the final contents of `qp2`
(refilled from `tmp` by the restore loop). -/
def get_union_run (qp1 qp2 : List document_t) :
    List document_t × List document_t :=
  union_drain qp1 qp2 []

def get_union (qp1 qp2 : List document_t) : List document_t :=
  (get_union_run qp1 qp2).1

def lookup_score (l : List document_t) (i : Int) : Option Int :=
  (doc_search l i).map (fun d => d.word_count)

/-- Modelled from the spec's words: the AND-combined score of two optional
scores. -/
def combineAnd : Option Int → Option Int → Option Int
  | some a, some b => some (min a b)
  | _, _ => none

/-- Modelled from the spec's words: the OR-combined score of two optional
scores. -/
def combineOr : Option Int → Option Int → Option Int
  | some a, some b => some (a + b)
  | some a, none => some a
  | none, some b => some b
  | none, none => none

theorem doc_search_cons (d : document_t) (l : List document_t) (i : Int) :
    doc_search (d :: l) i = if d.id = i then some d else doc_search l i := by
  by_cases h : d.id = i
  · simp [doc_search, List.find?_cons, h]
  · simp [doc_search, List.find?_cons, h]

theorem doc_search_eq_none {l : List document_t} {i : Int} :
    doc_search l i = none ↔ i ∉ l.map (fun d => d.id) := by
  simp [doc_search, List.find?_eq_none]

theorem lookup_score_cons (d : document_t) (l : List document_t) (i : Int) :
    lookup_score (d :: l) i =
      if d.id = i then some d.word_count else lookup_score l i := by
  unfold lookup_score
  rw [doc_search_cons]
  by_cases h : d.id = i <;> simp [h]

theorem lookup_score_eq_none {l : List document_t} {i : Int}
    (h : i ∉ l.map (fun d => d.id)) : lookup_score l i = none := by
  unfold lookup_score
  rw [doc_search_eq_none.mpr h]
  rfl

theorem get_intersection_lookup :
    ∀ (A B : List document_t) (i : Int),
      lookup_score (get_intersection A B) i =
        combineAnd (lookup_score A i) (lookup_score B i) := by
  intro A
  induction A with
  | nil =>
      intro B i
      show none = combineAnd none _
      cases h : lookup_score B i <;> rfl
  | cons a rest ih =>
      intro B i
      by_cases hai : a.id = i
      · subst hai
        cases hB : doc_search B a.id with
        | none =>
            simp only [get_intersection, hB]
            rw [ih B a.id, lookup_score_cons, if_pos rfl]
            have : lookup_score B a.id = none := by
              unfold lookup_score
              rw [hB]
              rfl
            rw [this]
            cases h2 : lookup_score rest a.id <;> rfl
        | some dp =>
            simp only [get_intersection, hB]
            rw [lookup_score_cons]
            simp only [if_pos rfl]
            rw [lookup_score_cons, if_pos rfl]
            have : lookup_score B a.id = some dp.word_count := by
              unfold lookup_score
              rw [hB]
              rfl
            rw [this]
            show some (if dp.word_count < a.word_count
              then dp.word_count else a.word_count) = some (min a.word_count dp.word_count)
            congr 1
            rw [min_def]
            split <;> split <;> omega
      · cases hB : doc_search B a.id with
        | none =>
            simp only [get_intersection, hB]
            rw [ih B i, lookup_score_cons, if_neg hai]
        | some dp =>
            simp only [get_intersection, hB]
            rw [lookup_score_cons]
            simp only [if_neg hai]
            rw [ih B i, lookup_score_cons, if_neg hai]

theorem get_intersection_ids_sublist (A B : List document_t) :
    ((get_intersection A B).map (fun d => d.id)).Sublist
      (A.map (fun d => d.id)) := by
  induction A with
  | nil => simp [get_intersection]
  | cons a rest ih =>
      cases hB : doc_search B a.id with
      | none =>
          simp only [get_intersection, hB, List.map_cons]
          exact ih.cons _
      | some dp =>
          simp only [get_intersection, hB, List.map_cons]
          exact ih.cons₂ _

theorem lookup_score_nil (j : Int) : lookup_score [] j = none := rfl

theorem add_doc_lookup : ∀ (q1 : List document_t) (i wc j : Int),
    lookup_score (add_doc q1 i wc) j =
      if j = i then some ((lookup_score q1 i).getD 0 + wc)
      else lookup_score q1 j := by
  intro q1
  induction q1 with
  | nil =>
      intro i wc j
      show lookup_score [⟨i, wc⟩] j = _
      rw [lookup_score_cons]
      simp only [lookup_score_nil]
      by_cases h : j = i
      · subst h
        rw [if_pos rfl, if_pos rfl]
        simp
      · rw [if_neg (fun he => h he.symm), if_neg h]
  | cons d rest ih =>
      intro i wc j
      by_cases hdi : d.id = i
      · simp only [add_doc, if_pos hdi, lookup_score_cons]
        split_ifs <;> simp_all
      · simp only [add_doc, if_neg hdi, lookup_score_cons, ih i wc j]
        split_ifs <;> simp_all

theorem add_doc_ids_found : ∀ (q1 : List document_t) (i wc : Int),
    (doc_search q1 i).isSome = true →
    (add_doc q1 i wc).map (fun d => d.id) = q1.map (fun d => d.id) := by
  intro q1
  induction q1 with
  | nil =>
      intro i wc h
      simp [doc_search] at h
  | cons d rest ih =>
      intro i wc h
      by_cases hdi : d.id = i
      · simp [add_doc, if_pos hdi]
  -- else
      · rw [doc_search_cons, if_neg hdi] at h
        simp only [add_doc, if_neg hdi, List.map_cons]
        rw [ih i wc h]

theorem add_doc_ids_new : ∀ (q1 : List document_t) (i wc : Int),
    doc_search q1 i = none →
    (add_doc q1 i wc).map (fun d => d.id) = q1.map (fun d => d.id) ++ [i] := by
  intro q1
  induction q1 with
  | nil => intro i wc _; rfl
  | cons d rest ih =>
      intro i wc h
      rw [doc_search_cons] at h
      by_cases hdi : d.id = i
      · rw [if_pos hdi] at h
        exact absurd h (by simp)
      · rw [if_neg hdi] at h
        simp only [add_doc, if_neg hdi, List.map_cons]
        rw [ih i wc h]
        rfl

theorem union_drain_restore : ∀ (q2 q1 tmp : List document_t),
    (union_drain q1 q2 tmp).2 = tmp ++ q2 := by
  intro q2
  induction q2 with
  | nil => intro q1 tmp; simp [union_drain]
  | cons dp rest ih =>
      intro q1 tmp
      show (union_drain (add_doc q1 dp.id dp.word_count) rest (tmp ++ [dp])).2 = _
      rw [ih]
      simp

theorem union_drain_lookup : ∀ (q2 q1 tmp : List document_t),
    (q2.map (fun d => d.id)).Nodup →
    ∀ j, lookup_score ((union_drain q1 q2 tmp).1) j =
      combineOr (lookup_score q1 j) (lookup_score q2 j) := by
  intro q2
  induction q2 with
  | nil =>
      intro q1 tmp _ j
      show lookup_score q1 j = combineOr (lookup_score q1 j) none
      cases h : lookup_score q1 j <;> rfl
  | cons dp rest ih =>
      intro q1 tmp hnd j
      rw [List.map_cons, List.nodup_cons] at hnd
      have hnd2 : (rest.map (fun d => d.id)).Nodup := hnd.2
      have hrestnone : lookup_score rest dp.id = none :=
        lookup_score_eq_none hnd.1
      show lookup_score ((union_drain (add_doc q1 dp.id dp.word_count)
        rest (tmp ++ [dp])).1) j = _
      rw [ih _ _ hnd2 j, add_doc_lookup]
      by_cases hj : j = dp.id
      · subst hj
        rw [if_pos rfl, hrestnone, lookup_score_cons, if_pos rfl]
        cases hq : lookup_score q1 dp.id with
        | none => simp [hq, combineOr]
        | some a => simp [hq, combineOr]
      · rw [if_neg hj, lookup_score_cons, if_neg (fun he => hj he.symm)]

theorem union_drain_ids_nodup : ∀ (q2 q1 tmp : List document_t),
    (q1.map (fun d => d.id)).Nodup → (q2.map (fun d => d.id)).Nodup →
    (((union_drain q1 q2 tmp).1).map (fun d => d.id)).Nodup := by
  intro q2
  induction q2 with
  | nil => intro q1 tmp h1 _; exact h1
  | cons dp rest ih =>
      intro q1 tmp h1 h2
      have h2r : (rest.map (fun d => d.id)).Nodup := by
        simp at h2
        exact h2.2
      show (((union_drain (add_doc q1 dp.id dp.word_count) rest (tmp ++ [dp])).1).map _).Nodup
      apply ih _ _ _ h2r
      cases hfound : doc_search q1 dp.id with
      | some d =>
          rw [add_doc_ids_found q1 dp.id dp.word_count (by simp [hfound])]
          exact h1
      | none =>
          rw [add_doc_ids_new q1 dp.id dp.word_count hfound]
          have : dp.id ∉ q1.map (fun d => d.id) := doc_search_eq_none.mp hfound
          simp [List.nodup_append, h1, this]

/-- C1: for result lists with unique doc ids (the invariant of result
lists during evaluation, index postings having unique doc ids), the
AND-combine `get_intersection` contains exactly one document per doc id
present in both lists with score `min(score_A, score_B)`, and the
OR-combine `get_union` contains exactly one document per doc id present in
either list, scored `score_A + score_B` when present in both and keeping
its single score otherwise; stated through per-id score lookups plus
uniqueness of the result ids. -/
theorem C1_combine_semantics (A B : List document_t)
    (hA : (A.map (fun d => d.id)).Nodup)
    (hB : (B.map (fun d => d.id)).Nodup) :
    (((get_intersection A B).map (fun d => d.id)).Nodup ∧
      ∀ i, lookup_score (get_intersection A B) i =
        combineAnd (lookup_score A i) (lookup_score B i)) ∧
    (((get_union A B).map (fun d => d.id)).Nodup ∧
      ∀ i, lookup_score (get_union A B) i =
        combineOr (lookup_score A i) (lookup_score B i)) := by
  refine ⟨⟨?_, fun i => get_intersection_lookup A B i⟩,
    ⟨?_, fun i => union_drain_lookup B A [] hB i⟩⟩
  · exact (get_intersection_ids_sublist A B).nodup hA
  · exact union_drain_ids_nodup B A [] hA hB

/-- witness instantiating the C1 theorem on concrete two-element lists,
checking the combined score of the shared doc id 2. -/
theorem C1_combine_semantics_witness :
    (((get_intersection [⟨1, 3⟩, ⟨2, 1⟩] [⟨2, 2⟩, ⟨3, 5⟩]).map
        (fun d => d.id)).Nodup ∧
      lookup_score (get_intersection [⟨1, 3⟩, ⟨2, 1⟩] [⟨2, 2⟩, ⟨3, 5⟩]) 2 =
        combineAnd (lookup_score [⟨1, 3⟩, ⟨2, 1⟩] 2)
          (lookup_score [⟨2, 2⟩, ⟨3, 5⟩] 2)) ∧
    (((get_union [⟨1, 3⟩, ⟨2, 1⟩] [⟨2, 2⟩, ⟨3, 5⟩]).map
        (fun d => d.id)).Nodup ∧
      lookup_score (get_union [⟨1, 3⟩, ⟨2, 1⟩] [⟨2, 2⟩, ⟨3, 5⟩]) 2 =
        combineOr (lookup_score [⟨1, 3⟩, ⟨2, 1⟩] 2)
          (lookup_score [⟨2, 2⟩, ⟨3, 5⟩] 2)) := by
  have h := C1_combine_semantics [⟨1, 3⟩, ⟨2, 1⟩] [⟨2, 2⟩, ⟨3, 5⟩]
    (by decide) (by decide)
  exact ⟨⟨h.1.1, h.1.2 2⟩, ⟨h.2.1, h.2.2 2⟩⟩

/-! ### query.c: evaluation loop and the index frame property (claim C8)

The main loop of query.c processes validated tokens with a stack of result
lists and a pending operator: an operator token only updates
`curr_operator`; a term is looked up with `hsearch` — its posting queue,
when found, is copied into a fresh list by `get_union(qopen(), ep->documents)`
(which drains and then restores `ep->documents`) — the copy is pushed, and
when the pending operator is `and` the two topmost lists are replaced by
their intersection.  Afterwards the remaining stack entries are folded
with `get_union`.  The index is threaded through explicitly: each lookup
writes the restored queue back into the entry it came from. -/

def hsearch_docs (index : List entry_t) (t : List Char) :
    Option (List document_t) :=
  (index.find? (fun e => e.word == t)).map (fun e => e.documents)

def index_update : List entry_t → List Char → List document_t → List entry_t
  | [], _, _ => []
  | e :: rest, t, docs =>
      if e.word = t then ⟨e.word, docs⟩ :: rest
      else e :: index_update rest t docs

/-- evaluation state: the stack of result lists (top = head) and
`curr_operator`. -/
structure eval_state where
  stack : List (List document_t)
  currOp : List Char
deriving DecidableEq

def eval_step (st : eval_state × List entry_t) (token : List Char) :
    eval_state × List entry_t :=
  if isOpW token = true then ({ st.1 with currOp := token }, st.2)
  else
    let looked :=
      match hsearch_docs st.2 token with
      | none => (([] : List document_t), st.2)
      | some docs =>
          let r := get_union_run [] docs
          (r.1, index_update st.2 token r.2)
    let stack1 := looked.1 :: st.1.stack
    let stack2 :=
      if st.1.currOp = andW then
        match stack1 with
        | q1 :: q2 :: rest => get_intersection q1 q2 :: rest
        | other => other
      else stack1
    (⟨stack2, st.1.currOp⟩, looked.2)

/-- the final union loop (`while (top > 0)`), fuelled by the stack depth. -/
def final_unionAux : Nat → List (List document_t) → List (List document_t)
  | 0, s => s
  | fuel + 1, q1 :: q2 :: rest => final_unionAux fuel (get_union q1 q2 :: rest)
  | _ + 1, s => s

/-- one whole evaluation of a validated token stream: the ranked result
list and the index state after evaluation. -/
def eval_query (index : List entry_t) (toks : List (List Char)) :
    List document_t × List entry_t :=
  let r := toks.foldl eval_step (⟨[], []⟩, index)
  ((final_unionAux r.1.stack.length r.1.stack).headD [], r.2)

theorem get_union_run_restores (qp1 qp2 : List document_t) :
    (get_union_run qp1 qp2).2 = qp2 := by
  show (union_drain qp1 qp2 []).2 = qp2
  rw [union_drain_restore]
  rfl

theorem index_update_self : ∀ (index : List entry_t) (t : List Char)
    (docs : List document_t), hsearch_docs index t = some docs →
    index_update index t docs = index := by
  intro index
  induction index with
  | nil =>
      intro t docs h
      simp [hsearch_docs] at h
  | cons e rest ih =>
      intro t docs h
      unfold hsearch_docs at h
      by_cases he : e.word = t
      · rw [List.find?_cons_of_pos _ (by simp [he])] at h
        simp at h
        unfold index_update
        rw [if_pos he, ← h]
      · rw [List.find?_cons_of_neg _ (by simp [he])] at h
        unfold index_update
        rw [if_neg he, ih t docs h]

theorem eval_step_index (st : eval_state × List entry_t) (token : List Char) :
    (eval_step st token).2 = st.2 := by
  by_cases hop : isOpW token = true
  · simp only [eval_step, if_pos hop]
  · cases hf : hsearch_docs st.2 token with
    | none => simp only [eval_step, if_neg hop, hf]
    | some docs =>
        simp only [eval_step, if_neg hop, hf]
        rw [get_union_run_restores, index_update_self st.2 token docs hf]

theorem eval_fold_index : ∀ (toks : List (List Char))
    (st : eval_state × List entry_t),
    (toks.foldl eval_step st).2 = st.2 := by
  intro toks
  induction toks with
  | nil => intro st; rfl
  | cons t rest ih =>
      intro st
      show (rest.foldl eval_step (eval_step st t)).2 = st.2
      rw [ih (eval_step st t), eval_step_index]

/-- C8: evaluating an accepted query leaves the loaded index's posting
queues unchanged — same entries, same postings, same counts, same order —
(each `get_union(qopen(), ep->documents)` restores the entry's queue), and
therefore evaluating the same query again against the resulting index
yields the identical result list with identical scores. -/
theorem C8_index_frame (index : List entry_t) (toks : List (List Char))
    (hv : validate_query toks = true) :
    (eval_query index toks).2 = index ∧
    (eval_query (eval_query index toks).2 toks).1 =
      (eval_query index toks).1 := by
  have hidx : (eval_query index toks).2 = index := by
    show (toks.foldl eval_step (⟨[], []⟩, index)).2 = index
    exact eval_fold_index toks _
  exact ⟨hidx, by rw [hidx]⟩

/-! ### query.c: one REPL iteration (claim C5) -/

/-- outcome of one iteration of main's query loop on one line of input:
ignored empty line, rejection with its printed line, or evaluation. -/
inductive step_result where
  | empty : step_result
  | invalid (printed : List Char) : step_result
  | results (rs : List document_t) : step_result
deriving DecidableEq

/-- the single line printed for a rejected query. -/
def invalidLine : List Char :=
  ['[', 'i', 'n', 'v', 'a', 'l', 'i', 'd', ' ', 'q', 'u', 'e', 'r', 'y', ']']

/-- one iteration of main's loop on one input line (without the trailing
newline): an empty line is ignored (`if (!query[0]) continue`); a failed
tokenisation (`tokenize_query` returned NULL: a non-alphabetic character
or zero surviving tokens) or failed validation prints `[invalid query]`
and does not evaluate; otherwise the stream is evaluated. -/
def queryStep (index : List entry_t) (raw : List Char) : step_result :=
  if raw = [] then .empty
  else
    match tokenize_query raw with
    | none => .invalid invalidLine
    | some [] => .invalid invalidLine
    | some toks =>
        if validate_query toks then .results (eval_query index toks).1
        else .invalid invalidLine

/-- C5: a non-empty input line is evaluated iff its token stream exists
(all characters alphabetic), is non-empty, does not start or end with an
operator and has no two adjacent operators; every other non-empty line —
including one with a non-alphabetic character — causes exactly the line
`[invalid query]` to be printed and no evaluation. -/
theorem C5_validate (index : List entry_t) (raw : List Char) (hne : raw ≠ []) :
    ((∃ toks, tokenize_query raw = some toks ∧ validSpec toks) ↔
      ∃ rs, queryStep index raw = .results rs) ∧
    (¬(∃ toks, tokenize_query raw = some toks ∧ validSpec toks) →
      queryStep index raw = .invalid invalidLine) := by
  unfold queryStep
  rw [if_neg hne]
  constructor
  · constructor
    · rintro ⟨toks, htoks, hv⟩
      rw [htoks]
      have hvb := (validate_query_iff toks).mpr hv
      cases toks with
      | nil => exact absurd rfl hv.1
      | cons t ts =>
          refine ⟨(eval_query index (t :: ts)).1, ?_⟩
          show (if validate_query (t :: ts) = true
                then step_result.results (eval_query index (t :: ts)).1
                else step_result.invalid invalidLine) =
            step_result.results (eval_query index (t :: ts)).1
          rw [if_pos hvb]
    · rintro ⟨rs, hrs⟩
      cases htk : tokenize_query raw with
      | none =>
          rw [htk] at hrs
          simp at hrs
      | some toks =>
          rw [htk] at hrs
          cases toks with
          | nil => simp at hrs
          | cons t ts =>
              by_cases hv : validate_query (t :: ts) = true
              · exact ⟨t :: ts, rfl, (validate_query_iff _).mp hv⟩
              · change (if validate_query (t :: ts) = true
                    then step_result.results (eval_query index (t :: ts)).1
                    else step_result.invalid invalidLine) =
                  step_result.results rs at hrs
                rw [if_neg hv] at hrs
                simp at hrs
  · intro hno
    cases htk : tokenize_query raw with
    | none => rfl
    | some toks =>
        cases toks with
        | nil => rfl
        | cons t ts =>
            have hv : ¬ validate_query (t :: ts) = true := by
              intro hvb
              exact hno ⟨t :: ts, htk, (validate_query_iff _).mp hvb⟩
            show (if validate_query (t :: ts) = true
                  then step_result.results (eval_query index (t :: ts)).1
                  else step_result.invalid invalidLine) =
              step_result.invalid invalidLine
            rw [if_neg hv]

/-- witness instantiating the C5 theorem on the invalid query `and foo`
(leading operator) of the spec's scenario 6. -/
theorem C5_validate_witness :
    ((∃ toks, tokenize_query
        ['a', 'n', 'd', ' ', 'f', 'o', 'o'] = some toks ∧ validSpec toks) ↔
      ∃ rs, queryStep [] ['a', 'n', 'd', ' ', 'f', 'o', 'o'] =
        .results rs) ∧
    (¬(∃ toks, tokenize_query
        ['a', 'n', 'd', ' ', 'f', 'o', 'o'] = some toks ∧ validSpec toks) →
      queryStep [] ['a', 'n', 'd', ' ', 'f', 'o', 'o'] =
        .invalid invalidLine) :=
  C5_validate [] ['a', 'n', 'd', ' ', 'f', 'o', 'o'] (by decide)

/-- witness instantiating the C8 theorem at a one-entry index and the
accepted one-term query `foo`. -/
theorem C8_index_frame_witness :
    (eval_query [⟨['f', 'o', 'o'], [⟨1, 2⟩]⟩] [['f', 'o', 'o']]).2 =
      [⟨['f', 'o', 'o'], [⟨1, 2⟩]⟩] ∧
    (eval_query ((eval_query [⟨['f', 'o', 'o'], [⟨1, 2⟩]⟩]
        [['f', 'o', 'o']]).2) [['f', 'o', 'o']]).1 =
      (eval_query [⟨['f', 'o', 'o'], [⟨1, 2⟩]⟩] [['f', 'o', 'o']]).1 :=
  C8_index_frame _ _ (by decide)

/-! ### indexer.c: word normalisation and posting accumulation (claim C6) -/

/-- NormalizeWord of indexer.c: a word of length < 3, or containing a
non-alphabetic character, is emptied in place (`word[0] = '\0'`, the empty
C string); an accepted word is lowercased.  The result models the C
string after the call. -/
def NormalizeWordIndexer (w : List Char) : List Char :=
  if w.length < 3 then []
  else if w.all isAlphaC then w.map toLowerC
  else []

/-- increment the posting of doc `i` (first match of `qsearch`) or append
`new_doc(i, 1)`. -/
def upd_doc : List document_t → Int → List document_t
  | [], i => [⟨i, 1⟩]
  | d :: rest, i =>
      if d.id = i then ⟨d.id, d.word_count + 1⟩ :: rest
      else d :: upd_doc rest i

/-- find-or-create the entry of word `w` (`hsearch` then `hput`) and
update its posting for document `docid`. -/
def add_word : List entry_t → Int → List Char → List entry_t
  | [], docid, w => [⟨w, [⟨docid, 1⟩]⟩]
  | e :: rest, docid, w =>
      if e.word = w then ⟨e.word, upd_doc e.documents docid⟩ :: rest
      else e :: add_word rest docid w

/-- one token of one page through the indexer main loop: normalise, skip
when rejected (`word[0] == '\0'`), insert otherwise. -/
def index_token (index : List entry_t) (docid : Int) (tok : List Char) :
    List entry_t :=
  let w := NormalizeWordIndexer tok
  if w = [] then index else add_word index docid w

/-- the count stored for document `i` in a posting queue. -/
def docCount (docs : List document_t) (i : Int) : Int :=
  match doc_search docs i with
  | none => 0
  | some d => d.word_count

/-- the count the index records for word `w` in document `docid`. -/
def wordDocCount (index : List entry_t) (w : List Char) (docid : Int) : Int :=
  match index.find? (fun e => e.word == w) with
  | none => 0
  | some e => docCount e.documents docid

theorem docCount_upd : ∀ (docs : List document_t) (i : Int),
    docCount (upd_doc docs i) i = docCount docs i + 1 := by
  intro docs
  induction docs with
  | nil =>
      intro i
      show docCount [⟨i, 1⟩] i = docCount [] i + 1
      unfold docCount
      rw [doc_search_cons, if_pos rfl]
      show (1 : Int) = 0 + 1
      omega
  | cons d rest ih =>
      intro i
      by_cases h : d.id = i
      · simp only [upd_doc, if_pos h]
        unfold docCount
        rw [doc_search_cons, doc_search_cons, if_pos h, if_pos h]
      · simp only [upd_doc, if_neg h]
        unfold docCount
        rw [doc_search_cons, doc_search_cons, if_neg h, if_neg h]
        exact ih i

theorem wordDocCount_add : ∀ (index : List entry_t) (docid : Int)
    (w : List Char),
    wordDocCount (add_word index docid w) w docid =
      wordDocCount index w docid + 1 := by
  intro index
  induction index with
  | nil =>
      intro docid w
      show wordDocCount [⟨w, [⟨docid, 1⟩]⟩] w docid = _
      unfold wordDocCount
      rw [List.find?_cons_of_pos _ (by simp)]
      show docCount [⟨docid, 1⟩] docid = _
      unfold docCount
      rw [doc_search_cons, if_pos rfl]
      rfl
  | cons e rest ih =>
      intro docid w
      by_cases he : e.word = w
      · simp only [add_word, if_pos he]
        unfold wordDocCount
        rw [List.find?_cons_of_pos _ (by simp [he]),
            List.find?_cons_of_pos _ (by simp [he])]
        exact docCount_upd e.documents docid
      · simp only [add_word, if_neg he]
        unfold wordDocCount
        rw [List.find?_cons_of_neg _ (by simp [he]),
            List.find?_cons_of_neg _ (by simp [he])]
        exact ih docid w

/-- C6: a candidate token is accepted by the indexer iff it is non-empty,
of length at least 3 and entirely alphabetic; an accepted token is
processed as its lowercase form and its posting count for the current
document grows by exactly one; any other token leaves the index exactly
unchanged (contributes to no posting). -/
theorem C6_normalize_index (index : List entry_t) (docid : Int)
    (tok : List Char) :
    (NormalizeWordIndexer tok ≠ [] ↔
      (tok ≠ [] ∧ 3 ≤ tok.length ∧ tok.all isAlphaC = true)) ∧
    ((tok ≠ [] ∧ 3 ≤ tok.length ∧ tok.all isAlphaC = true) →
      index_token index docid tok = add_word index docid (tok.map toLowerC) ∧
      wordDocCount (index_token index docid tok) (tok.map toLowerC) docid =
        wordDocCount index (tok.map toLowerC) docid + 1) ∧
    (¬(tok ≠ [] ∧ 3 ≤ tok.length ∧ tok.all isAlphaC = true) →
      index_token index docid tok = index) := by
  have hiff : NormalizeWordIndexer tok ≠ [] ↔
      (tok ≠ [] ∧ 3 ≤ tok.length ∧ tok.all isAlphaC = true) := by
    unfold NormalizeWordIndexer
    by_cases h3 : tok.length < 3
    · rw [if_pos h3]
      simp
      omega
    · rw [if_neg h3]
      by_cases ha : tok.all isAlphaC = true
      · rw [if_pos ha]
        simp [ha]
        intro _
        omega
      · rw [if_neg ha]
        simp [ha]
  refine ⟨hiff, ?_, ?_⟩
  · intro h
    have hnw : NormalizeWordIndexer tok ≠ [] := hiff.mpr h
    have hw : NormalizeWordIndexer tok = tok.map toLowerC := by
      unfold NormalizeWordIndexer
      rw [if_neg (by omega : ¬ tok.length < 3), if_pos h.2.2]
    constructor
    · unfold index_token
      rw [hw] at hnw ⊢
      rw [if_neg hnw]
    · unfold index_token
      rw [hw] at hnw ⊢
      rw [if_neg hnw]
      exact wordDocCount_add index docid (tok.map toLowerC)
  · intro h
    have hnw : NormalizeWordIndexer tok = [] := by
      by_contra hc
      exact h (hiff.mp hc)
    unfold index_token
    rw [hnw]
    rfl

/-- witness instantiating the C6 theorem: the accepted token `the` is
counted, the rejected token `a` changes nothing. -/
theorem C6_normalize_index_witness :
    index_token [] 1 ['t', 'h', 'e'] =
      add_word [] 1 (['t', 'h', 'e'].map toLowerC) ∧
    index_token [] 1 ['a'] = [] :=
  ⟨((C6_normalize_index [] 1 ['t', 'h', 'e']).2.1 (by decide)).1,
   (C6_normalize_index [] 1 ['a']).2.2 (by decide)⟩

/-! ### indexer.c: directory scan and failure on unloadable ids (claim C10)

The indexer collects every directory entry whose name does not start with
a dot, parses it with `atoi`, sorts the ids ascending (`qsort`), and loads
each id with `pageload`; a failed load exits with `EXIT_FAILURE` before
`indexsave` runs, so no index file is written.  The page directory is
abstracted as a map from DocId to the word sequence of the loadable page
(`none` when `pageload` returns NULL). -/

def startsDot (nm : List Char) : Bool :=
  match nm with
  | [] => false
  | c :: _ => c = '.'

def insertSorted (x : Int) : List Int → List Int
  | [] => [x]
  | y :: rest => if x ≤ y then x :: y :: rest else y :: insertSorted x rest

def sortInts : List Int → List Int
  | [] => []
  | x :: rest => insertSorted x (sortInts rest)

/-- the DocIds the indexer will process, in ascending order. -/
def indexer_ids (entries : List (List Char)) : List Int :=
  sortInts ((entries.filter (fun nm => !startsDot nm)).map atoi)

/-- the page loop: load each id in order; `pageload` failure aborts the
run (`exit(EXIT_FAILURE)`, modelled `none`); otherwise every word of the
page goes through `index_token`. -/
def indexer_pages (pages : Int → Option (List (List Char))) :
    List Int → List entry_t → Option (List entry_t)
  | [], index => some index
  | i :: rest, index =>
      match pages i with
      | none => none
      | some ws =>
          indexer_pages pages rest
            (ws.foldl (fun idx w => index_token idx i w) index)

/-- the whole indexer run on a directory listing. -/
def indexer_run (entries : List (List Char))
    (pages : Int → Option (List (List Char))) : Option (List entry_t) :=
  indexer_pages pages (indexer_ids entries) []

theorem mem_insertSorted {y x : Int} :
    ∀ {l : List Int}, y ∈ insertSorted x l ↔ y = x ∨ y ∈ l := by
  intro l
  induction l with
  | nil => simp [insertSorted]
  | cons a rest ih =>
      by_cases h : x ≤ a
      · simp [insertSorted, h]
      · simp only [insertSorted, if_neg h, List.mem_cons, ih]
        tauto

theorem mem_sortInts {x : Int} : ∀ {l : List Int}, x ∈ sortInts l ↔ x ∈ l := by
  intro l
  induction l with
  | nil => simp [sortInts]
  | cons a rest ih =>
      simp only [sortInts, mem_insertSorted, List.mem_cons, ih]

theorem indexer_pages_none (pages : Int → Option (List (List Char))) :
    ∀ (ids : List Int) (index : List entry_t),
    (∃ i ∈ ids, pages i = none) → indexer_pages pages ids index = none := by
  intro ids
  induction ids with
  | nil =>
      rintro index ⟨i, hi, _⟩
      simp at hi
  | cons j rest ih =>
      rintro index ⟨i, hi, hnone⟩
      cases hj : pages j with
      | none => simp [indexer_pages, hj]
      | some ws =>
          simp only [indexer_pages, hj]
          apply ih
          rcases List.mem_cons.mp hi with rfl | hmem
          · rw [hj] at hnone
            exact absurd hnone (by simp)
          · exact ⟨i, hmem, hnone⟩

/-- C10: when some directory entry does not start with a dot and its
atoi-parsed DocId has no loadable page file, the indexer aborts without
producing an index; moreover a purely alphabetic filename parses to
DocId 0 under atoi. -/
theorem C10_indexer_failure (entries : List (List Char))
    (pages : Int → Option (List (List Char)))
    (h : ∃ nm ∈ entries, startsDot nm = false ∧ pages (atoi nm) = none) :
    indexer_run entries pages = none ∧
    ∀ nm : List Char, (∀ c ∈ nm, isAlphaC c = true) → atoi nm = 0 := by
  constructor
  · obtain ⟨nm, hmem, hdot, hnone⟩ := h
    apply indexer_pages_none
    refine ⟨atoi nm, ?_, hnone⟩
    unfold indexer_ids
    rw [mem_sortInts]
    exact List.mem_map.mpr ⟨nm, List.mem_filter.mpr ⟨hmem, by simp [hdot]⟩, rfl⟩
  · intro nm hall
    exact atoi_all_alpha nm hall

/-- witness instantiating the C10 theorem on a directory holding one
non-numeric entry `foo` with no loadable pages at all. -/
theorem C10_indexer_failure_witness :
    indexer_run [['f', 'o', 'o']] (fun _ => none) = none :=
  (C10_indexer_failure [['f', 'o', 'o']] (fun _ => none)
    ⟨['f', 'o', 'o'], by simp, by decide, rfl⟩).1

/-! ### query.c: metadata extraction and rendering (claim C7)

`get_metadata` loads each ranked document's PageRecord with `pageload`;
when the load fails the rankedDoc keeps its NULL url/title/content and is
still re-queued and printed.  The title is the text between the first
`<title>` and the following `</title>` (substring search on the raw HTML),
the snippet is the `content="…"` attribute value after the first
`<meta name="description"`, truncated to 128 bytes.  `main` then prints
`printf("title: %s\nrank:%d doc:%d : %s\n", title, wc, id, url)` and
`printf("%s...\n\n", content)`; a NULL pointer under `%s` is undefined
behaviour in ISO C, and glibc — the platform of this repository — prints
the literal `(null)`. -/

structure rankedDoc_meta where
  id : Int
  word_count : Int
  url : Option (List Char)
  title : Option (List Char)
  content : Option (List Char)
deriving DecidableEq

def leadsWith : List Char → List Char → Bool
  | [], _ => true
  | _ :: _, [] => false
  | c :: ns, h :: hs => c == h && leadsWith ns hs

/-- C `strstr`: the suffix of the haystack starting at the first
occurrence of the needle (the C function returns a pointer into the
haystack; the suffix it points to is returned here). -/
def strstr (needle : List Char) : List Char → Option (List Char)
  | [] => if leadsWith needle [] then some [] else none
  | c :: rest =>
      if leadsWith needle (c :: rest) then some (c :: rest)
      else strstr needle rest

def titleOpen : List Char := ['<', 't', 'i', 't', 'l', 'e', '>']

def titleClose : List Char := ['<', '/', 't', 'i', 't', 'l', 'e', '>']

def metaDescKey : List Char :=
  ['<', 'm', 'e', 't', 'a', ' ', 'n', 'a', 'm', 'e', '=', '"',
   'd', 'e', 's', 'c', 'r', 'i', 'p', 't', 'i', 'o', 'n', '"']

def contentKey : List Char := ['c', 'o', 'n', 't', 'e', 'n', 't', '=', '"']

/-- text between the first `<title>` and the following `</title>`;
`len = end - start - strlen("<title>")`. -/
def extract_title (html : List Char) : Option (List Char) :=
  match strstr titleOpen html with
  | none => none
  | some start =>
      match strstr titleClose start with
      | none => none
      | some endSfx =>
          some ((start.drop 7).take (start.length - endSfx.length - 7))

/-- the `content="…"` value after the first `<meta name="description"`,
truncated to 128 bytes (`strchr` finds the closing quote). -/
def extract_content (html : List Char) : Option (List Char) :=
  match strstr metaDescKey html with
  | none => none
  | some start =>
      match strstr contentKey start with
      | none => none
      | some s2 =>
          let after := s2.drop 9
          match strstr ['"'] after with
          | none => none
          | some e => some (after.take (min (after.length - e.length) 128))

/-- a numbered page file of the page directory, loaded by `pageload`. -/
def load_page (pagedir : Int → Option (List Char)) (i : Int) :
    Option webpage_t :=
  (pagedir i).bind pageload

/-- `get_metadata` on a single ranked document. -/
def get_metadata_doc (pagedir : Int → Option (List Char))
    (d : document_t) : rankedDoc_meta :=
  match load_page pagedir d.id with
  | none => ⟨d.id, d.word_count, none, none, none⟩
  | some pg =>
      ⟨d.id, d.word_count, some pg.url,
       extract_title pg.html, extract_content pg.html⟩

/-- the bytes glibc emits for a NULL `%s` argument. -/
def nullStr : List Char := ['(', 'n', 'u', 'l', 'l', ')']

def renderOpt : Option (List Char) → List Char
  | none => nullStr
  | some s => s

/-- Modelled from the spec's words, for comparison with `renderOpt`:
`Missing fields render as empty strings in their slot.` -/
def renderOptSpec : Option (List Char) → List Char
  | none => []
  | some s => s

/-- the two `printf` calls of `main` for one ranked document. -/
def render_doc (d : rankedDoc_meta) : List Char :=
  ['t', 'i', 't', 'l', 'e', ':', ' '] ++ renderOpt d.title ++ '\n' ::
    (['r', 'a', 'n', 'k', ':'] ++ intChars d.word_count ++
     [' ', 'd', 'o', 'c', ':'] ++ intChars d.id ++ [' ', ':', ' '] ++
     renderOpt d.url ++ '\n' ::
       (renderOpt d.content ++ ['.', '.', '.', '\n', '\n']))

/-- Modelled from the spec's words: the same layout with missing fields
rendered as empty strings. -/
def render_doc_spec (d : rankedDoc_meta) : List Char :=
  ['t', 'i', 't', 'l', 'e', ':', ' '] ++ renderOptSpec d.title ++ '\n' ::
    (['r', 'a', 'n', 'k', ':'] ++ intChars d.word_count ++
     [' ', 'd', 'o', 'c', ':'] ++ intChars d.id ++ [' ', ':', ' '] ++
     renderOptSpec d.url ++ '\n' ::
       (renderOptSpec d.content ++ ['.', '.', '.', '\n', '\n']))

/-- the print loop of `main` over the (sorted) ranked queue. -/
def print_results (pagedir : Int → Option (List Char))
    (docs : List document_t) : List Char :=
  (docs.map (fun d => render_doc (get_metadata_doc pagedir d))).flatten

/-- C7 (counterexample): a ranked document whose PageRecord is missing
renders with the literal `(null)` in the url/title/snippet slots, not
with empty strings as the claim states. -/
theorem C7_render_counterexample :
    render_doc (get_metadata_doc (fun _ => none) ⟨1, 2⟩) ≠
      render_doc_spec (get_metadata_doc (fun _ => none) ⟨1, 2⟩) := by
  decide

/-- C7 (amended): a ranked document is always printed (its rendering is a
chunk of the printed output wherever it sits in the queue); a missing
PageRecord leaves url, title and snippet all NULL and each slot renders
as the literal `(null)` (glibc's behaviour for a NULL `%s` argument);
a loaded page without the `<title>` marker yields a NULL title and one
without the `<meta name="description"` marker yields a NULL snippet. -/
theorem C7_render_amended (pagedir : Int → Option (List Char))
    (d : document_t) :
    (∀ docs : List document_t, d ∈ docs → ∃ pre post,
      print_results pagedir docs =
        pre ++ render_doc (get_metadata_doc pagedir d) ++ post) ∧
    (load_page pagedir d.id = none →
      get_metadata_doc pagedir d = ⟨d.id, d.word_count, none, none, none⟩ ∧
      render_doc (get_metadata_doc pagedir d) =
        ['t', 'i', 't', 'l', 'e', ':', ' '] ++ nullStr ++ '\n' ::
          (['r', 'a', 'n', 'k', ':'] ++ intChars d.word_count ++
           [' ', 'd', 'o', 'c', ':'] ++ intChars d.id ++ [' ', ':', ' '] ++
           nullStr ++ '\n' :: (nullStr ++ ['.', '.', '.', '\n', '\n']))) ∧
    (∀ pg, load_page pagedir d.id = some pg →
      strstr titleOpen pg.html = none →
      (get_metadata_doc pagedir d).title = none) ∧
    (∀ pg, load_page pagedir d.id = some pg →
      strstr metaDescKey pg.html = none →
      (get_metadata_doc pagedir d).content = none) := by
  refine ⟨?_, ?_, ?_, ?_⟩
  · intro docs hmem
    obtain ⟨s, t, rfl⟩ := List.append_of_mem hmem
    refine ⟨(s.map (fun x => render_doc (get_metadata_doc pagedir x))).flatten,
      (t.map (fun x => render_doc (get_metadata_doc pagedir x))).flatten, ?_⟩
    unfold print_results
    simp
  · intro h
    have hmeta : get_metadata_doc pagedir d =
        ⟨d.id, d.word_count, none, none, none⟩ := by
      unfold get_metadata_doc
      rw [h]
    exact ⟨hmeta, by rw [hmeta]; rfl⟩
  · intro pg hpg hnone
    unfold get_metadata_doc
    rw [hpg]
    show extract_title pg.html = none
    unfold extract_title
    rw [hnone]
  · intro pg hpg hnone
    unfold get_metadata_doc
    rw [hpg]
    show extract_content pg.html = none
    unfold extract_content
    rw [hnone]

/-- witness instantiating the amended C7 theorem: the rendering of a
ranked document whose page directory holds no pages at all. -/
theorem C7_render_amended_witness :
    render_doc (get_metadata_doc (fun _ => none) ⟨1, 2⟩) =
      ['t', 'i', 't', 'l', 'e', ':', ' '] ++ nullStr ++ '\n' ::
        (['r', 'a', 'n', 'k', ':'] ++ intChars 2 ++
         [' ', 'd', 'o', 'c', ':'] ++ intChars 1 ++ [' ', ':', ' '] ++
         nullStr ++ '\n' :: (nullStr ++ ['.', '.', '.', '\n', '\n'])) :=
  ((C7_render_amended (fun _ => none) ⟨1, 2⟩).2.1 rfl).2

/-! ### crawler.c: bounded-depth BFS (claim C9)

The crawler is multi-threaded, but every mutation of the shared state
(frontier queue, visited set, DocId counter, page counters) happens inside
the single `crawl_mutex` critical section, so a concurrent execution is an
arbitrary interleaving of those atomic sections: it is modelled as a
transition system.  URL extraction and fetch success are external
(webpage facility) and enter as nondeterministic choices; a fetch failure,
an external URL or an already-visited URL changes no shared state and
needs no transition.  `main` fetches the seed, saves it with DocId 1 and
enqueues it before the workers start (`crawl_init`). -/

structure crawl_page where
  url : List Char
  depth : Nat
deriving DecidableEq

structure crawl_state where
  frontier : List crawl_page
  active : List crawl_page
  visited : List (List Char)
  saved : List (Nat × crawl_page)
  next_id : Nat
  pages_added : Nat
  pages_retrieved : Nat
deriving DecidableEq

def seed_page (seed : List Char) : crawl_page := ⟨seed, 0⟩

/-- the shared state after `main` saved and enqueued the fetched seed. -/
def crawl_init (seed : List Char) : crawl_state :=
  ⟨[seed_page seed], [], [seed], [(1, seed_page seed)], 2, 1, 0⟩

inductive crawl_step (max_depth : Nat) : crawl_state → crawl_state → Prop
  | dequeue (p : crawl_page) (rest : List crawl_page) (s : crawl_state)
      (hf : s.frontier = p :: rest) :
      crawl_step max_depth s
        { s with frontier := rest, active := p :: s.active }
  | discover (p : crawl_page) (u : List Char) (s : crawl_state)
      (hp : p ∈ s.active) (hd : p.depth < max_depth) (hu : u ∉ s.visited) :
      crawl_step max_depth s
        { s with
          frontier := s.frontier ++ [⟨u, p.depth + 1⟩],
          visited := u :: s.visited,
          saved := s.saved ++ [(s.next_id, ⟨u, p.depth + 1⟩)],
          next_id := s.next_id + 1,
          pages_added := s.pages_added + 1 }
  | finish (p : crawl_page) (s : crawl_state) (hp : p ∈ s.active) :
      crawl_step max_depth s
        { s with active := s.active.erase p,
                 pages_retrieved := s.pages_retrieved + 1 }

/-- states a crawl with the given seed and depth bound can reach. -/
def crawl_reachable (seed : List Char) (max_depth : Nat)
    (s : crawl_state) : Prop :=
  Relation.ReflTransGen (crawl_step max_depth) (crawl_init seed) s

/-- C9: in every reachable crawl state, every saved page has depth at most
`max_depth` — the seed is saved at depth 0 and a new page is created only
at depth `p.depth + 1` under the guard `p.depth < max_depth` — and with
`max_depth = 0` exactly one page, the seed (DocId 1), is ever saved. -/
theorem C9_depth_invariant (seed : List Char) (max_depth : Nat)
    (s : crawl_state) (h : crawl_reachable seed max_depth s) :
    (∀ pr ∈ s.saved, pr.2.depth ≤ max_depth) ∧
    (max_depth = 0 → s.saved = [(1, seed_page seed)]) := by
  induction h with
  | refl =>
      constructor
      · intro pr hpr
        simp [crawl_init] at hpr
        subst hpr
        simp [seed_page]
      · intro _
        rfl
  | tail hreach hstep ih =>
      cases hstep with
      | dequeue p rest s hf => simpa using ih
      | discover p u s hp hd hu =>
          constructor
          · intro pr hpr
            simp at hpr
            rcases hpr with hold | hnew
            · exact ih.1 pr hold
            · rw [hnew]
              simpa using hd
          · intro h0
            rw [h0] at hd
            omega
      | finish p s hp => simpa using ih

/-- witness instantiating the C9 theorem at the initial state of a
`max_depth = 0` crawl: only the seed is saved. -/
theorem C9_depth_invariant_witness :
    (crawl_init ['u']).saved = [(1, seed_page ['u'])] :=
  (C9_depth_invariant ['u'] 0 (crawl_init ['u'])
    Relation.ReflTransGen.refl).2 rfl

end TSE
